import Mathlib

/-!
Verification of `jell::inplace_vector` (src/src/inplace_vector.hpp): a shallow
embedding of the storage engine, the attic staging relocator, the checked
iterator, and the container operations, together with proofs of the spec's
claims about them.

Modelling conventions:
* A `storage<T, N>` is a list of `N` slots, each `Option α` (`some v` = a live,
  constructed element; `none` = uninitialized / destroyed), plus the `size_`
  field.  `data()[i]` becomes `data_.getD i none`; placement construction and
  destruction become `List.set`.
* Throwing operations return `Except`; when the container outlives the throw,
  the error carries the storage state observable after stack unwinding.
* Move-construction of an element from one slot to another copies the value and
  nulls the source (the C++ code always destroys the source right after moving
  from it); move-assignment between live slots copies the value and leaves the
  source slot live, exactly as the C++ does.
-/

set_option autoImplicit false

namespace InplaceVec

variable {α : Type}

/-- The distinct error signals of the container: `std::bad_alloc` (capacity
exhaustion), `std::out_of_range` (checked element access), and
`std::range_error` (checked-iterator violations). -/
inductive VecError where
  | badAlloc
  | outOfRange
  | rangeErr
deriving DecidableEq

/-- Model of `inplace_vector_detail::storage<T, N>`: the slot array `data_`
(length `N`; `some` = live element, `none` = raw memory) and the occupancy
count `size_`. -/
structure Storage (α : Type) where
  data_ : List (Option α)
  size_ : Nat
deriving DecidableEq

/-- `storage::data()[i]` read: the content of slot `i`. -/
def Storage.get (s : Storage α) (i : Nat) : Option α :=
  s.data_.getD i none

/-- `storage::size(n)` setter. -/
def Storage.set_size (s : Storage α) (n : Nat) : Storage α :=
  { s with size_ := n }

/-- `storage::construct_at(i, v)`: placement-construct `v` into slot `i`. -/
def Storage.construct_at (s : Storage α) (i : Nat) (v : α) : Storage α :=
  { s with data_ := s.data_.set i (some v) }

/-- `storage::construct_at(i, std::move(data()[j]))`: placement-construct into
slot `i` from an already-read slot content. -/
def Storage.construct_from (s : Storage α) (i : Nat) (v : Option α) : Storage α :=
  { s with data_ := s.data_.set i v }

/-- `storage::destroy_at(i)`: destroy the element in slot `i`. -/
def Storage.destroy_at (s : Storage α) (i : Nat) : Storage α :=
  { s with data_ := s.data_.set i none }

/-- Helper for `storage::destroy(first, last)`: destroy `k` slots starting at
`first`. -/
def destroySlots (l : List (Option α)) (first k : Nat) : List (Option α) :=
  match k with
  | 0 => l
  | k + 1 => destroySlots (l.set first none) (first + 1) k

/-- `storage::destroy(first, last)`: destroy the elements in `[first, last)`. -/
def Storage.destroy (s : Storage α) (first last : Nat) : Storage α :=
  { s with data_ := destroySlots s.data_ first (last - first) }

/-- `storage::clear()`: destroy `[0, size_)` and reset `size_` to `0`. -/
def Storage.clear (s : Storage α) : Storage α :=
  (s.destroy 0 s.size_).set_size 0

/-- The storage state holding exactly the values `l` as its live slots, inside
capacity `N`: the well-formed state every container operation starts from. -/
def ofList (N : Nat) (l : List α) : Storage α :=
  { data_ := l.map some ++ List.replicate (N - l.length) none, size_ := l.length }

/-- The observable contents of the container: the values of the live slots
`[0, size_)`. -/
def Storage.values (s : Storage α) : List α :=
  (s.data_.take s.size_).filterMap id

/-- `inplace_vector::capacity_check(size)` (lines 852-858): `bad_alloc` iff the
requested size exceeds the capacity `N`. -/
def capacity_check (N n : Nat) : Except VecError Unit :=
  if n > N then .error .badAlloc else .ok ()

/-- `inplace_vector::range_check(pos)` (lines 844-850), used by `at`:
`out_of_range` iff `pos ≥ size`. -/
def at_range_check (s : Storage α) (pos : Nat) : Except VecError Unit :=
  if pos ≥ s.size_ then .error .outOfRange else .ok ()

/-- `inplace_vector::unchecked_emplace_back(v)` (lines 726-732). -/
def unchecked_emplace_back (s : Storage α) (v : α) : Storage α :=
  (s.construct_at s.size_ v).set_size (s.size_ + 1)

/-- `inplace_vector::emplace_back(v)` (lines 710-715); on `bad_alloc` the
container is not touched, so the error carries the unchanged state. -/
def emplace_back (N : Nat) (s : Storage α) (v : α) : Except (VecError × Storage α) (Storage α) :=
  match capacity_check N (s.size_ + 1) with
  | .error e => .error (e, s)
  | .ok _ => .ok (unchecked_emplace_back s v)

/-- `inplace_vector::try_emplace_back(v)` (lines 717-724): `none` (null
pointer) when full, otherwise the index of the new element. -/
def try_emplace_back (N : Nat) (s : Storage α) (v : α) : Option Nat × Storage α :=
  if s.size_ ≥ N then (none, s)
  else (some s.size_, unchecked_emplace_back s v)

/-- `inplace_vector::push_back(v)` (lines 734-742) delegates to
`emplace_back`. -/
def push_back (N : Nat) (s : Storage α) (v : α) : Except (VecError × Storage α) (Storage α) :=
  emplace_back N s v

theorem Storage.get_eq (s : Storage α) (i : Nat) : s.get i = s.data_.getD i none := rfl

/-- `getD` at the junction of an append. -/
theorem getD_append_len {β : Type} (A : List β) (b : β) (B : List β) (d : β) :
    (A ++ b :: B).getD A.length d = b := by
  induction A with
  | nil => rfl
  | cons a A ih => simpa using ih

/-- `getD` inside the left part of an append. -/
theorem getD_append_lt {β : Type} (A B : List β) (i : Nat) (d : β) (h : i < A.length) :
    (A ++ B).getD i d = A.getD i d := by
  induction A generalizing i with
  | nil => simp at h
  | cons a A ih =>
    cases i with
    | zero => rfl
    | succ i => simpa using ih i (by simpa using h)

/-- `set` at the junction of an append. -/
theorem set_append_len {β : Type} (A : List β) (b : β) (B : List β) (x : β) :
    (A ++ b :: B).set A.length x = A ++ x :: B := by
  induction A with
  | nil => rfl
  | cons a A ih => simpa using ih

/-- `set` inside the left part of an append. -/
theorem set_append_lt {β : Type} (A B : List β) (i : Nat) (x : β) (h : i < A.length) :
    (A ++ B).set i x = A.set i x ++ B := by
  induction A generalizing i with
  | nil => simp at h
  | cons a A ih =>
    cases i with
    | zero => rfl
    | succ i => simpa using ih i (by simpa using h)

/-- `take` of an append at exactly the left length. -/
theorem take_len_append {β : Type} (A B : List β) : (A ++ B).take A.length = A := by
  induction A with
  | nil => rfl
  | cons a A ih => simpa using ih

/-- `drop` of an append at exactly the left length. -/
theorem drop_len_append {β : Type} (A B : List β) : (A ++ B).drop A.length = B := by
  induction A with
  | nil => rfl
  | cons a A ih => simpa using ih

theorem filterMap_id_map_some (l : List α) : (l.map some).filterMap id = l := by
  induction l with
  | nil => rfl
  | cons a l ih => simpa using ih

theorem values_ofList (N : Nat) (l : List α) : (ofList N l).values = l := by
  unfold ofList Storage.values
  have h1 : (l.map some ++ List.replicate (N - l.length) none).take l.length = l.map some := by
    have h2 := take_len_append (l.map some) (List.replicate (N - l.length) none)
    simpa using h2
  simp only [h1]
  exact filterMap_id_map_some l

theorem size_ofList (N : Nat) (l : List α) : (ofList N l).size_ = l.length := rfl

/-- Model of `inplace_vector_detail::attic<T, N>`'s own state: the half-open
parked range `[begin_, end_)` of slots it currently owns. -/
structure Attic where
  begin_ : Nat
  end_ : Nat
deriving DecidableEq

/-- One iteration of the attic constructor's relocation loop (lines 222-227),
run `k` times: move the last live element up to slot `begin_ - 1`, destroy its
source slot, decrement `size_` and `begin_`.  Returns the storage and the final
`begin_`. -/
def atticInitLoop (s : Storage α) (b k : Nat) : Storage α × Nat :=
  match k with
  | 0 => (s, b)
  | k + 1 =>
    let lastIndex := s.size_ - 1
    let s1 := ((s.construct_from (b - 1) (s.get lastIndex)).destroy_at lastIndex).set_size lastIndex
    atticInitLoop s1 (b - 1) k

/-- `attic::attic(storage, save_pos, attic_end)` (lines 208-229): park the tail
`[save_index, size_)` at the top of `[_, attic_end)`.  The C++ loop runs while
`size_ != save_index`, i.e. `size_ - save_index` times (callers guarantee
`save_index ≤ size_`). -/
def attic_init (s : Storage α) (save_index attic_end : Nat) : Storage α × Attic :=
  if attic_end = s.size_ then
    (s.set_size save_index, ⟨save_index, attic_end⟩)
  else
    let r := atticInitLoop s attic_end (s.size_ - save_index)
    (r.1, ⟨r.2, attic_end⟩)

/-- One iteration of `attic::retrieve`'s loop (lines 245-249), run `k` times:
move the first parked element down to slot `size_`, destroy its source slot,
increment `size_` and `begin_`. -/
def retrieveLoop (s : Storage α) (b k : Nat) : Storage α × Nat :=
  match k with
  | 0 => (s, b)
  | k + 1 =>
    let s1 := ((s.construct_from s.size_ (s.get b)).destroy_at b).set_size (s.size_ + 1)
    retrieveLoop s1 (b + 1) k

/-- `attic::retrieve()` (lines 239-251). -/
def attic_retrieve (s : Storage α) (a : Attic) : Storage α × Attic :=
  if s.size_ = a.begin_ then
    (s.set_size a.end_, ⟨a.end_, a.end_⟩)
  else
    let r := retrieveLoop s a.begin_ (a.end_ - a.begin_)
    (r.1, ⟨r.2, a.end_⟩)

/-- `attic::~attic()` (lines 232-235): destroy whatever is still parked in
`[begin_, end_)`. -/
def attic_dtor (s : Storage α) (a : Attic) : Storage α :=
  s.destroy a.begin_ a.end_

/-- `attic::capacity_check(pos)` (lines 255-261): `bad_alloc` iff `pos` has
reached the parked zone. -/
def attic_capacity_check (a : Attic) (pos : Nat) : Except VecError Unit :=
  if pos ≥ a.begin_ then .error .badAlloc else .ok ()

/-- `inplace_vector::insert(pos, const value_type&)` (lines 635-642); the attic
destructor runs after `retrieve` emptied it, so it destroys nothing. -/
def insert (N : Nat) (s : Storage α) (pos : Nat) (v : α) : Except (VecError × Storage α) (Storage α) :=
  match capacity_check N (s.size_ + 1) with
  | .error e => .error (e, s)
  | .ok _ =>
    let r := attic_init s pos (s.size_ + 1)
    let s2 := unchecked_emplace_back r.1 v
    let r2 := attic_retrieve s2 r.2
    .ok (attic_dtor r2.1 r2.2)

/-- `inplace_vector::insert(pos, first, last)` for random-access iterators and
`insert(pos, count, value)` (lines 653-662, 667-676): the element count is
known up front, so `capacity_check` precedes any mutation. -/
def insert_list (N : Nat) (s : Storage α) (pos : Nat) (vs : List α) : Except (VecError × Storage α) (Storage α) :=
  match capacity_check N (s.size_ + vs.length) with
  | .error e => .error (e, s)
  | .ok _ =>
    let r := attic_init s pos (s.size_ + vs.length)
    let s2 := vs.foldl unchecked_emplace_back r.1
    let r2 := attic_retrieve s2 r.2
    .ok (attic_dtor r2.1 r2.2)

/-- The fill loop of the input-iterator `insert` overload (lines 680-683):
before each append, `attic::capacity_check(size())` may throw `bad_alloc`, in
which case the state at the throw point is carried on the error. -/
def fillLoop (s : Storage α) (a : Attic) (vs : List α) : Except (VecError × Storage α) (Storage α) :=
  match vs with
  | [] => .ok s
  | v :: rest =>
    match attic_capacity_check a s.size_ with
    | .error e => .error (e, s)
    | .ok _ => fillLoop (unchecked_emplace_back s v) a rest

/-- `inplace_vector::insert(pos, first, last)` for plain input iterators
(lines 677-686): the attic is pushed to full capacity; on overflow the attic
destructor destroys the parked tail and `bad_alloc` propagates. -/
def insert_input (N : Nat) (s : Storage α) (pos : Nat) (vs : List α) : Except (VecError × Storage α) (Storage α) :=
  let r := attic_init s pos N
  match fillLoop r.1 r.2 vs with
  | .ok s2 =>
    let r2 := attic_retrieve s2 r.2
    .ok (attic_dtor r2.1 r2.2)
  | .error (e, sErr) => .error (e, attic_dtor sErr r.2)

/-- The shift-left loop of `erase(first, last)` (lines 805-807), run `k` times:
`*dst++ = std::move(*src++)` move-assigns over live slots (the source slot
stays live, moved-from).  Returns the storage and the final `dst`. -/
def eraseLoop (s : Storage α) (dst src k : Nat) : Storage α × Nat :=
  match k with
  | 0 => (s, dst)
  | k + 1 => eraseLoop { s with data_ := s.data_.set dst (s.get src) } (dst + 1) (src + 1) k

/-- `inplace_vector::erase(first, last)` (lines 801-812): shift the surviving
tail left, destroy the vacated slots, shrink `size_`. -/
def erase_range (s : Storage α) (first last : Nat) : Storage α :=
  let r := eraseLoop s first last (s.size_ - last)
  (r.1.destroy r.2 r.1.size_).set_size r.2

/-- `inplace_vector::erase(pos)` (lines 796-799): `erase(pos, pos + 1)`. -/
def erase_at (s : Storage α) (pos : Nat) : Storage α :=
  erase_range s pos (pos + 1)

/-- The growing loop of `resize` (lines 612-614, 622-625), run `k` times. -/
def resizeGrowLoop (s : Storage α) (v : α) (k : Nat) : Storage α :=
  match k with
  | 0 => s
  | k + 1 => resizeGrowLoop (unchecked_emplace_back s v) v k

/-- `inplace_vector::resize(count, value)` (lines 617-626), with
`resize(count)` (lines 606-615) the same modulo the default-constructed fill
value.  Note: the source performs no `capacity_check`; growing uses
`unchecked_emplace_back` only, so it cannot raise `bad_alloc`. -/
def resize (s : Storage α) (count : Nat) (v : α) : Storage α :=
  let s1 := if s.size_ > count then (s.destroy count s.size_).set_size count else s
  resizeGrowLoop s1 v (count - s1.size_)

/-- The overwrite loop of `assign(count, value)` (lines 529-532), run `k`
times starting at index `i`. -/
def assignFillLoop (s : Storage α) (v : α) (i k : Nat) : Storage α :=
  match k with
  | 0 => s
  | k + 1 => assignFillLoop { s with data_ := s.data_.set i (some v) } v (i + 1) k

/-- `inplace_vector::assign(count, value)` (lines 526-534): capacity check,
overwrite the shared prefix of length `min size count`, then
`resize(count, value)`. -/
def assign_count (N : Nat) (s : Storage α) (count : Nat) (v : α) : Except (VecError × Storage α) (Storage α) :=
  match capacity_check N count with
  | .error e => .error (e, s)
  | .ok _ =>
    let s1 := assignFillLoop s v 0 (min s.size_ count)
    .ok (resize s1 count v)

/-- `inplace_vector::append_range(rg)` (lines 770-777): capacity check on the
final size, then append every element unchecked. -/
def append_range (N : Nat) (s : Storage α) (vs : List α) : Except (VecError × Storage α) (Storage α) :=
  match capacity_check N (s.size_ + vs.length) with
  | .error e => .error (e, s)
  | .ok _ => .ok (vs.foldl unchecked_emplace_back s)

/-- The assignment loop of the non-trivial `storage::operator=(storage&&)`
(lines 112-114), run `k` times from index `i`: `data()[i] =
std::move(other.data()[i])` (the source slot stays live, moved-from). -/
def moveAssignCopyLoop (a b : Storage α) (i k : Nat) : Storage α :=
  match k with
  | 0 => a
  | k + 1 => moveAssignCopyLoop { a with data_ := a.data_.set i (b.get i) } b (i + 1) k

/-- The construction loop of the non-trivial `storage::operator=(storage&&)`
(lines 115-117), run `k` times: construct `other.data()[size_]` at `size_`. -/
def moveAssignTailLoop (a b : Storage α) (k : Nat) : Storage α :=
  match k with
  | 0 => a
  | k + 1 => moveAssignTailLoop ((a.construct_from a.size_ (b.get a.size_)).set_size (a.size_ + 1)) b k

/-- `storage::operator=(storage&&)`, the non-trivial overload (lines 106-120):
shrink the excess tail, move-assign the shared prefix, move-construct the rest,
then zero the source's `size_`.  Returns `(target, source)` afterwards. -/
def move_assign (a b : Storage α) : Storage α × Storage α :=
  let a1 := if a.size_ > b.size_ then (a.destroy b.size_ a.size_).set_size b.size_ else a
  let a2 := moveAssignCopyLoop a1 b 0 a1.size_
  let a3 := moveAssignTailLoop a2 b (b.size_ - a2.size_)
  (a3, b.set_size 0)

/-- `storage::operator=(storage&&)` for trivially-move-assignable `T`
(line 105): the defaulted operator copies `data_` and `size_` memberwise and
leaves the source untouched. -/
def move_assign_trivial (a b : Storage α) : Storage α × Storage α :=
  (⟨b.data_, b.size_⟩, b)

/-- `std::equal(first1, last1, first2, last2)` as called by `operator==`
(lines 833-836): false on a length mismatch, otherwise elementwise equality in
order. -/
def stdEqual [DecidableEq α] : List α → List α → Bool
  | [], [] => true
  | [], _ :: _ => false
  | _ :: _, [] => false
  | x :: xs, y :: ys => decide (x = y) && stdEqual xs ys

/-- `operator==(lhs, rhs)` (lines 833-836). -/
def vec_eq [DecidableEq α] (a b : Storage α) : Bool :=
  stdEqual a.values b.values

/-- The checked iterator (CHECKED_ITERATORS build, lines 271-447): the current
position and the `[first_, last_]` bounds captured at creation, as pointer
offsets. -/
structure CheckedIter where
  pos_ : Int
  first_ : Int
  last_ : Int
deriving DecidableEq

/-- `iterator::deref_check(pos)` (lines 416-423): `range_error` unless
`first_ ≤ pos < last_`. -/
def deref_check (it : CheckedIter) (p : Int) : Except VecError Unit :=
  if p < it.first_ ∨ p ≥ it.last_ then .error .rangeErr else .ok ()

/-- `iterator::range_check(pos)` (lines 425-432): `range_error` unless
`first_ ≤ pos ≤ last_`. -/
def iter_range_check (it : CheckedIter) (p : Int) : Except VecError Unit :=
  if p < it.first_ ∨ p > it.last_ then .error .rangeErr else .ok ()

/-- `iterator::operator*` (lines 317-321): check, then read the element at
`pos_`; returns the position actually read. -/
def iter_deref (it : CheckedIter) : Except VecError Int :=
  match deref_check it it.pos_ with
  | .error e => .error e
  | .ok _ => .ok it.pos_

/-- `iterator::operator[](n)` (lines 330-335): check `pos_ + n`, then form the
reference to that slot (no read happens inside the operator itself). -/
def iter_index (it : CheckedIter) (n : Int) : Except VecError Int :=
  match iter_range_check it (it.pos_ + n) with
  | .error e => .error e
  | .ok _ => .ok (it.pos_ + n)

/-- `iterator::operator++` (lines 337-342). -/
def iter_inc (it : CheckedIter) : Except VecError CheckedIter :=
  match iter_range_check it (it.pos_ + 1) with
  | .error e => .error e
  | .ok _ => .ok { it with pos_ := it.pos_ + 1 }

/-- `iterator::operator--` (lines 351-356). -/
def iter_dec (it : CheckedIter) : Except VecError CheckedIter :=
  match iter_range_check it (it.pos_ - 1) with
  | .error e => .error e
  | .ok _ => .ok { it with pos_ := it.pos_ - 1 }

/-- `iterator::operator+=(n)` (lines 365-371). -/
def iter_add_assign (it : CheckedIter) (n : Int) : Except VecError CheckedIter :=
  match iter_range_check it (it.pos_ + n) with
  | .error e => .error e
  | .ok _ => .ok { it with pos_ := it.pos_ + n }

/-- `iterator::operator-=(n)` (lines 373-377): `*this += -n`. -/
def iter_sub_assign (it : CheckedIter) (n : Int) : Except VecError CheckedIter :=
  iter_add_assign it (-n)

/-- `operator+(iterator, n)` (lines 379-384): copy, then `+= n`. -/
def iter_add (it : CheckedIter) (n : Int) : Except VecError CheckedIter :=
  iter_add_assign it n

/-- `operator-(iterator, n)` (lines 393-398): copy, then `-= n`. -/
def iter_sub (it : CheckedIter) (n : Int) : Except VecError CheckedIter :=
  iter_sub_assign it n

/-- Every storage state reached during an attic-mediated mutation: live values
`u` in the first `u.length` slots, a gap of `g` dead slots, the parked values
`w`, and `t` further dead slots at the top. -/
def midState (u : List α) (g : Nat) (w : List α) (t : Nat) : Storage α :=
  { data_ := u.map some ++ (List.replicate g none ++ (w.map some ++ List.replicate t none)),
    size_ := u.length }

theorem ofList_eq_midState (N : Nat) (l : List α) (g t : Nat) (h : N - l.length = g + t) :
    ofList N l = midState l g ([] : List α) t := by
  unfold ofList midState
  simp only [List.map_nil, List.nil_append]
  rw [h, List.replicate_add]

theorem midState_closed (u : List α) (g t : Nat) (w : List α) :
    midState (u ++ w) g ([] : List α) t
      = ofList (u.length + w.length + (g + t)) (u ++ w) := by
  rw [ofList_eq_midState (u.length + w.length + (g + t)) (u ++ w) g t (by simp)]

/-- One step of the attic constructor loop, on the canonical state shape: the
last live element `x` moves to the last gap slot, joining the parked values. -/
theorem atticInitLoop_succ (u w : List α) (x : α) (g t k : Nat) (hg : 1 ≤ g) :
    atticInitLoop (midState (u ++ [x]) g w t) ((u ++ [x]).length + g) (k + 1)
      = atticInitLoop (midState u g (x :: w) t) (u.length + g) k := by
  obtain ⟨g', rfl⟩ : ∃ g', g = g' + 1 := ⟨g - 1, by omega⟩
  have e1 : (midState (u ++ [x]) (g' + 1) w t).size_ - 1 = u.length := by
    simp [midState]
  have e2 : (midState (u ++ [x]) (g' + 1) w t).get u.length = some x := by
    unfold midState Storage.get
    have h3 : (u ++ [x]).map some ++
        (List.replicate (g' + 1) (none : Option α) ++ (w.map some ++ List.replicate t none))
        = u.map some ++ (some x ::
          (List.replicate (g' + 1) none ++ (w.map some ++ List.replicate t none))) := by
      simp
    rw [h3]
    have hlen : u.length = (u.map some).length := by simp
    rw [hlen, getD_append_len]
  have hstate : (((midState (u ++ [x]) (g' + 1) w t).construct_from
        ((u ++ [x]).length + (g' + 1) - 1)
        ((midState (u ++ [x]) (g' + 1) w t).get
          ((midState (u ++ [x]) (g' + 1) w t).size_ - 1))).destroy_at
          ((midState (u ++ [x]) (g' + 1) w t).size_ - 1)).set_size
          ((midState (u ++ [x]) (g' + 1) w t).size_ - 1)
      = midState u (g' + 1) (x :: w) t := by
    rw [e1, e2]
    unfold midState Storage.construct_from Storage.destroy_at Storage.set_size
    simp only [Storage.mk.injEq]
    refine ⟨?_, by simp⟩
    -- the first write goes to the last gap slot
    have hsplit : ((u ++ [x]).map some ++
        (List.replicate (g' + 1) (none : Option α) ++ (w.map some ++ List.replicate t none)))
        = ((u ++ [x]).map some ++ List.replicate g' none) ++
          (none :: (w.map some ++ List.replicate t none)) := by
      rw [List.replicate_succ']
      simp
    rw [hsplit]
    have hidx : (u ++ [x]).length + (g' + 1) - 1
        = (((u ++ [x]).map some) ++ List.replicate g' (none : Option α)).length := by
      simp only [List.length_append, List.length_map, List.length_replicate,
        List.length_cons, List.length_nil]
      omega
    rw [hidx, set_append_len]
    -- the second write destroys the vacated source slot
    have hsplit2 : (((u ++ [x]).map some ++ List.replicate g' (none : Option α)) ++
        some x :: (w.map some ++ List.replicate t none))
        = (u.map some) ++ (some x ::
          (List.replicate g' none ++ (some x :: (w.map some ++ List.replicate t none)))) := by
      simp
    rw [hsplit2]
    have hlen2 : u.length = (u.map some).length := by simp
    rw [hlen2, set_append_len]
    simp [List.replicate_succ]
  have hb : (u ++ [x]).length + (g' + 1) - 1 = u.length + (g' + 1) := by
    simp only [List.length_append, List.length_cons, List.length_nil]
    omega
  simp only [atticInitLoop]
  rw [hstate, hb]

/-- The attic constructor loop relocates the suffix `v` of the live values into
the parked zone, one element at a time from the right. -/
theorem atticInitLoop_spec (u v w : List α) (g t : Nat) (hg : 1 ≤ g) :
    atticInitLoop (midState (u ++ v) g w t) ((u ++ v).length + g) v.length
      = (midState u g (v ++ w) t, u.length + g) := by
  induction v using List.reverseRecOn generalizing w with
  | nil => simp [atticInitLoop]
  | append_singleton v x ih =>
    have h1 : u ++ (v ++ [x]) = (u ++ v) ++ [x] := by simp
    have h2 : (v ++ [x]).length = v.length + 1 := by simp
    rw [h1, h2, atticInitLoop_succ (u ++ v) w x g t v.length hg]
    rw [ih (x :: w)]
    simp

/-- Appending into the gap: `unchecked_emplace_back` fills the first gap slot. -/
theorem emplace_midState (u : List α) (g : Nat) (w : List α) (t : Nat) (v : α) (hg : 1 ≤ g) :
    unchecked_emplace_back (midState u g w t) v = midState (u ++ [v]) (g - 1) w t := by
  obtain ⟨g', rfl⟩ : ∃ g', g = g' + 1 := ⟨g - 1, by omega⟩
  unfold unchecked_emplace_back midState Storage.construct_at Storage.set_size
  simp only [Storage.mk.injEq]
  constructor
  · have hsplit : u.map some ++
        (List.replicate (g' + 1) (none : Option α) ++ (w.map some ++ List.replicate t none))
        = u.map some ++
          (none :: (List.replicate g' none ++ (w.map some ++ List.replicate t none))) := by
      simp [List.replicate_succ]
    rw [hsplit]
    have hlen : u.length = (u.map some).length := by simp
    rw [hlen, set_append_len]
    simp
  · simp

theorem foldl_emplace_midState (vs : List α) (u : List α) (g : Nat) (w : List α) (t : Nat)
    (h : vs.length ≤ g) :
    vs.foldl unchecked_emplace_back (midState u g w t) = midState (u ++ vs) (g - vs.length) w t := by
  induction vs generalizing u g with
  | nil => simp
  | cons v rest ih =>
    have h1 : 1 ≤ g := by simp at h; omega
    rw [List.foldl_cons, emplace_midState u g w t v h1,
      ih (u ++ [v]) (g - 1) (by simp only [List.length_cons] at h; omega)]
    simp only [List.append_assoc, List.singleton_append, List.length_cons]
    congr 1
    omega

/-- The input-iterator fill loop succeeds when the values fit in the gap. -/
theorem fillLoop_ok (vs : List α) (u w : List α) (g t : Nat) (a : Attic)
    (hB : a.begin_ = u.length + g) (h : vs.length ≤ g) :
    fillLoop (midState u g w t) a vs = .ok (midState (u ++ vs) (g - vs.length) w t) := by
  induction vs generalizing u g with
  | nil => simp [fillLoop]
  | cons v rest ih =>
    have h1 : 1 ≤ g := by simp at h; omega
    unfold fillLoop attic_capacity_check
    rw [if_neg (by unfold midState; simp only []; omega)]
    rw [emplace_midState u g w t v h1,
      ih (u ++ [v]) (g - 1)
        (by rw [hB]; simp only [List.length_append, List.length_cons, List.length_nil]; omega)
        (by simp only [List.length_cons] at h; omega)]
    have e1 : (u ++ [v]) ++ rest = u ++ v :: rest := by simp
    have e2 : g - 1 - rest.length = g - (v :: rest).length := by
      simp only [List.length_cons]
      omega
    rw [e1, e2]

/-- The input-iterator fill loop hits `attic::capacity_check` once the gap is
exhausted: exactly `g` elements were appended, and the error carries the state
at the throw point. -/
theorem fillLoop_err (vs : List α) (u w : List α) (g t : Nat) (a : Attic)
    (hB : a.begin_ = u.length + g) (h : g < vs.length) :
    fillLoop (midState u g w t) a vs
      = .error (.badAlloc, midState (u ++ vs.take g) 0 w t) := by
  induction vs generalizing u g with
  | nil => simp at h
  | cons v rest ih =>
    unfold fillLoop attic_capacity_check
    rcases Nat.eq_zero_or_pos g with hg | hg
    · subst hg
      rw [if_pos (by unfold midState; simp only []; omega)]
      simp
    · rw [if_neg (by unfold midState; simp only []; omega)]
      rw [emplace_midState u g w t v hg,
        ih (u ++ [v]) (g - 1)
          (by rw [hB]; simp only [List.length_append, List.length_cons, List.length_nil]; omega)
          (by simp only [List.length_cons] at h; omega)]
      have htake : (u ++ [v]) ++ rest.take (g - 1) = u ++ (v :: rest).take g := by
        obtain ⟨g', rfl⟩ : ∃ g', g = g' + 1 := ⟨g - 1, by omega⟩
        simp
      rw [htake]

/-- One step of `attic::retrieve`'s loop: the first parked element moves down
into the first gap slot. -/
theorem retrieveLoop_succ (u w : List α) (x : α) (g t k : Nat) (hg : 1 ≤ g) :
    retrieveLoop (midState u g (x :: w) t) (u.length + g) (k + 1)
      = retrieveLoop (midState (u ++ [x]) g w t) ((u ++ [x]).length + g) k := by
  obtain ⟨g', rfl⟩ : ∃ g', g = g' + 1 := ⟨g - 1, by omega⟩
  have e2 : (midState u (g' + 1) (x :: w) t).get (u.length + (g' + 1)) = some x := by
    unfold midState Storage.get
    have h3 : u.map some ++
        (List.replicate (g' + 1) (none : Option α) ++ ((x :: w).map some ++ List.replicate t none))
        = (u.map some ++ List.replicate (g' + 1) none) ++
          (some x :: (w.map some ++ List.replicate t none)) := by
      simp
    rw [h3]
    have hlen : u.length + (g' + 1) = (u.map some ++ List.replicate (g' + 1) (none : Option α)).length := by
      simp
    rw [hlen, getD_append_len]
  have hstate : (((midState u (g' + 1) (x :: w) t).construct_from
        ((midState u (g' + 1) (x :: w) t).size_)
        ((midState u (g' + 1) (x :: w) t).get (u.length + (g' + 1)))).destroy_at
          (u.length + (g' + 1))).set_size
          ((midState u (g' + 1) (x :: w) t).size_ + 1)
      = midState (u ++ [x]) (g' + 1) w t := by
    rw [e2]
    unfold midState Storage.construct_from Storage.destroy_at Storage.set_size
    simp only [Storage.mk.injEq]
    refine ⟨?_, by simp⟩
    have hsplit : u.map some ++
        (List.replicate (g' + 1) (none : Option α) ++ ((x :: w).map some ++ List.replicate t none))
        = u.map some ++
          (none :: (List.replicate g' none ++ (some x :: (w.map some ++ List.replicate t none)))) := by
      rw [List.replicate_succ]
      simp
    rw [hsplit]
    have hlen : u.length = (u.map some).length := by simp
    rw [hlen, set_append_len]
    have hsplit2 : u.map some ++
        some x :: (List.replicate g' (none : Option α) ++ (some x :: (w.map some ++ List.replicate t none)))
        = (u.map some ++ some x :: List.replicate g' none) ++
          (some x :: (w.map some ++ List.replicate t none)) := by
      simp
    rw [hsplit2]
    have hidx : (List.map some u).length + (g' + 1)
        = (u.map some ++ some x :: List.replicate g' (none : Option α)).length := by
      simp
    rw [hidx, set_append_len]
    rw [List.replicate_succ']
    simp
  simp only [retrieveLoop]
  rw [hstate]
  have hb : u.length + (g' + 1) + 1 = (u ++ [x]).length + (g' + 1) := by
    simp only [List.length_append, List.length_cons, List.length_nil]
    omega
  rw [hb]

/-- `attic::retrieve`'s loop moves all parked values `v` back down, in order. -/
theorem retrieveLoop_spec (v : List α) (u w : List α) (g t : Nat) (hg : 1 ≤ g) :
    retrieveLoop (midState u g (v ++ w) t) (u.length + g) v.length
      = (midState (u ++ v) g w t, (u ++ v).length + g) := by
  induction v generalizing u with
  | nil => simp [retrieveLoop]
  | cons x v ih =>
    have h1 : (x :: v) ++ w = x :: (v ++ w) := by simp
    rw [h1, List.length_cons, retrieveLoop_succ u (v ++ w) x g t v.length hg, ih (u ++ [x])]
    simp

/-- `attic::retrieve` restores contiguity: the live values followed by the
parked values, with all dead slots at the top, and an empty attic. -/
theorem attic_retrieve_spec (u w : List α) (g t : Nat) :
    attic_retrieve (midState u g w t) ⟨u.length + g, u.length + g + w.length⟩
      = (⟨(u ++ w).map some ++ List.replicate (g + t) none, (u ++ w).length⟩,
         ⟨u.length + g + w.length, u.length + g + w.length⟩) := by
  rcases Nat.eq_zero_or_pos g with hg | hg
  · subst hg
    unfold attic_retrieve
    rw [if_pos (by unfold midState; simp)]
    unfold midState Storage.set_size
    simp
  · unfold attic_retrieve
    rw [if_neg (by unfold midState; simp only []; omega)]
    have hfuel : u.length + g + w.length - (u.length + g) = w.length := by omega
    simp only [hfuel]
    have hr := retrieveLoop_spec w u [] g t hg
    rw [List.append_nil] at hr
    simp only [hr]
    unfold midState
    simp only [Prod.mk.injEq, Storage.mk.injEq, Attic.mk.injEq, List.map_nil, List.nil_append,
      List.append_nil, List.replicate_add, List.length_append, true_and, and_true]
    omega

/-- Destroying an empty attic range is the identity. -/
theorem attic_dtor_empty (s : Storage α) (E : Nat) : attic_dtor s ⟨E, E⟩ = s := by
  unfold attic_dtor Storage.destroy
  simp [destroySlots]

/-- `destroySlots` nulls out exactly the destroyed range. -/
theorem destroySlots_append (k : Nat) (A B : List (Option α)) (hk : k ≤ B.length) :
    destroySlots (A ++ B) A.length k = A ++ (List.replicate k none ++ B.drop k) := by
  induction k generalizing A B with
  | zero => simp [destroySlots]
  | succ k ih =>
    match B, hk with
    | b :: B', hk =>
      unfold destroySlots
      rw [set_append_len]
      have h1 : A ++ none :: B' = (A ++ [none]) ++ B' := by simp
      have h2 : A.length + 1 = (A ++ [(none : Option α)]).length := by simp
      rw [h1, h2, ih (A ++ [none]) B' (by simpa using hk)]
      simp [List.replicate_succ]

/-- `attic::attic`: from a well-formed container, the constructor parks the
tail `l.drop p` at the top of `[0, E)` and leaves the storage holding exactly
`l.take p`. -/
theorem attic_init_spec (N E : Nat) (l : List α) (p : Nat)
    (hp : p ≤ l.length) (hLE : l.length ≤ E) (hEN : E ≤ N) :
    attic_init (ofList N l) p E
      = (midState (l.take p) (E - l.length) (l.drop p) (N - E), ⟨p + (E - l.length), E⟩) := by
  by_cases hE : E = l.length
  · subst hE
    unfold attic_init
    rw [if_pos (size_ofList N l).symm]
    simp only [Nat.sub_self, Nat.add_zero]
    have hstor : (ofList N l).set_size p = midState (l.take p) 0 (l.drop p) (N - l.length) := by
      unfold ofList midState Storage.set_size
      simp only [Storage.mk.injEq, List.replicate_zero, List.nil_append, List.map_take,
        List.map_drop]
      refine ⟨?_, by simp [Nat.min_eq_left hp]⟩
      rw [← List.append_assoc, List.take_append_drop]
    rw [hstor]
  · have hLT : l.length < E := by omega
    have hsz : (ofList N l).size_ = l.length := rfl
    unfold attic_init
    rw [if_neg (by rw [hsz]; exact hE)]
    have hof : ofList N l = midState l (E - l.length) ([] : List α) (N - E) :=
      ofList_eq_midState N l (E - l.length) (N - E) (by omega)
    have hloop := atticInitLoop_spec (l.take p) (l.drop p) [] (E - l.length) (N - E) (by omega)
    rw [List.take_append_drop] at hloop
    have hE2 : l.length + (E - l.length) = E := by omega
    rw [hE2] at hloop
    have hfuel : l.length - p = (l.drop p).length := by simp
    rw [hsz, hof, hfuel]
    simp only [hloop, List.append_nil]
    simp [Nat.min_eq_left hp]

theorem length_take_of_le (l : List α) (p : Nat) (hp : p ≤ l.length) :
    (l.take p).length = p := by
  simp [Nat.min_eq_left hp]

theorem length_insert_list (l : List α) (p : Nat) (v : α) (hp : p ≤ l.length) :
    (l.take p ++ v :: l.drop p).length = l.length + 1 := by
  simp only [List.length_append, List.length_cons, List.length_take, List.length_drop,
    Nat.min_eq_left hp]
  omega

/-- `insert(pos, value)` on a non-full container: the new value lands at `pos`,
everything else keeps its relative order. -/
theorem insert_eq (N : Nat) (l : List α) (p : Nat) (v : α)
    (hp : p ≤ l.length) (hN : l.length < N) :
    insert N (ofList N l) p v = .ok (ofList N (l.take p ++ v :: l.drop p)) := by
  unfold insert
  rw [size_ofList]
  have hcap : capacity_check N (l.length + 1) = .ok () := by
    unfold capacity_check
    rw [if_neg (by omega)]
  simp only [hcap]
  have hai := attic_init_spec N (l.length + 1) l p hp (by omega) (by omega)
  have h1 : l.length + 1 - l.length = 1 := by omega
  rw [h1] at hai
  simp only [hai]
  have hem := emplace_midState (l.take p) 1 (l.drop p) (N - (l.length + 1)) v (le_refl 1)
  simp only [hem]
  have hretr := attic_retrieve_spec (l.take p ++ [v]) (l.drop p) (1 - 1) (N - (l.length + 1))
  have e1 : (l.take p ++ [v]).length + (1 - 1) = p + 1 := by
    simp only [List.length_append, List.length_cons, List.length_nil,
      length_take_of_le l p hp]
  rw [e1] at hretr
  have e2 : p + 1 + (l.drop p).length = l.length + 1 := by
    simp only [List.length_drop]
    omega
  rw [e2] at hretr
  simp only [hretr, attic_dtor_empty]
  unfold ofList
  simp only [Except.ok.injEq, Storage.mk.injEq]
  have e3 : (l.take p ++ [v]) ++ l.drop p = l.take p ++ v :: l.drop p := by simp
  rw [e3, length_insert_list l p v hp]
  refine ⟨?_, rfl⟩
  have e4 : 1 - 1 + (N - (l.length + 1)) = N - (l.length + 1) := by omega
  rw [e4]

/-- `insert(pos, count, value)` / random-access `insert(pos, first, last)`:
the values `vs` land at `pos` in order, everything else keeps its relative
order. -/
theorem insert_list_eq (N : Nat) (l : List α) (p : Nat) (vs : List α)
    (hp : p ≤ l.length) (hN : l.length + vs.length ≤ N) :
    insert_list N (ofList N l) p vs = .ok (ofList N (l.take p ++ vs ++ l.drop p)) := by
  unfold insert_list
  rw [size_ofList]
  have hcap : capacity_check N (l.length + vs.length) = .ok () := by
    unfold capacity_check
    rw [if_neg (by omega)]
  simp only [hcap]
  have hai := attic_init_spec N (l.length + vs.length) l p hp (by omega) (by omega)
  have h1 : l.length + vs.length - l.length = vs.length := by omega
  rw [h1] at hai
  simp only [hai]
  have hfold := foldl_emplace_midState vs (l.take p) vs.length (l.drop p)
    (N - (l.length + vs.length)) (le_refl _)
  simp only [hfold]
  have hretr := attic_retrieve_spec (l.take p ++ vs) (l.drop p) (vs.length - vs.length)
    (N - (l.length + vs.length))
  have e1 : (l.take p ++ vs).length + (vs.length - vs.length) = p + vs.length := by
    simp only [List.length_append, length_take_of_le l p hp]
    omega
  rw [e1] at hretr
  have e2 : p + vs.length + (l.drop p).length = l.length + vs.length := by
    simp only [List.length_drop]
    omega
  rw [e2] at hretr
  simp only [hretr, attic_dtor_empty]
  unfold ofList
  simp only [Except.ok.injEq, Storage.mk.injEq]
  have e3 : (l.take p ++ vs) ++ l.drop p = l.take p ++ vs ++ l.drop p := by simp
  have e4 : (l.take p ++ vs ++ l.drop p).length = l.length + vs.length := by
    simp only [List.length_append, List.length_take, List.length_drop, Nat.min_eq_left hp]
    omega
  rw [e3, e4]
  refine ⟨?_, by trivial⟩
  have e5 : vs.length - vs.length + (N - (l.length + vs.length)) = N - (l.length + vs.length) := by
    omega
  rw [e5]

/-- The input-iterator `insert` overload when the values fit: same result as
the sized overloads. -/
theorem insert_input_ok (N : Nat) (l : List α) (p : Nat) (vs : List α)
    (hp : p ≤ l.length) (hN : l.length + vs.length ≤ N) :
    insert_input N (ofList N l) p vs = .ok (ofList N (l.take p ++ vs ++ l.drop p)) := by
  unfold insert_input
  have hai := attic_init_spec N N l p hp (by omega) (le_refl N)
  simp only [hai]
  have hfill := fillLoop_ok vs (l.take p) (l.drop p) (N - l.length) (N - N)
    ⟨p + (N - l.length), N⟩ (by rw [length_take_of_le l p hp]) (by omega)
  simp only [hfill]
  have hretr := attic_retrieve_spec (l.take p ++ vs) (l.drop p)
    (N - l.length - vs.length) (N - N)
  have e1 : (l.take p ++ vs).length + (N - l.length - vs.length) = p + (N - l.length) := by
    simp only [List.length_append, length_take_of_le l p hp]
    omega
  rw [e1] at hretr
  have e2 : p + (N - l.length) + (l.drop p).length = N := by
    simp only [List.length_drop]
    omega
  rw [e2] at hretr
  simp only [hretr, attic_dtor_empty]
  unfold ofList
  simp only [Except.ok.injEq, Storage.mk.injEq]
  have e3 : (l.take p ++ vs) ++ l.drop p = l.take p ++ vs ++ l.drop p := by simp
  have e4 : (l.take p ++ vs ++ l.drop p).length = l.length + vs.length := by
    simp only [List.length_append, List.length_take, List.length_drop, Nat.min_eq_left hp]
    omega
  rw [e3, e4]
  refine ⟨?_, by trivial⟩
  have e5 : N - l.length - vs.length + (N - N) = N - (l.length + vs.length) := by omega
  rw [e5]

/-- The input-iterator `insert` overload on overflow: `bad_alloc`, with the
container left holding the first `pos` original values followed by the values
inserted before exhaustion — the parked tail has been destroyed by the attic
destructor. -/
theorem insert_input_err (N : Nat) (l : List α) (p : Nat) (vs : List α)
    (hp : p ≤ l.length) (hle : l.length ≤ N) (h : N - l.length < vs.length) :
    insert_input N (ofList N l) p vs
      = .error (.badAlloc, ofList N (l.take p ++ vs.take (N - l.length))) := by
  unfold insert_input
  have hai := attic_init_spec N N l p hp (by omega) (le_refl N)
  simp only [hai]
  have hfill := fillLoop_err vs (l.take p) (l.drop p) (N - l.length) (N - N)
    ⟨p + (N - l.length), N⟩ (by rw [length_take_of_le l p hp]) h
  simp only [Nat.sub_self] at hfill ⊢
  simp only [hfill]
  refine congrArg Except.error (congrArg (Prod.mk VecError.badAlloc) ?_)
  unfold attic_dtor Storage.destroy midState ofList
  simp only [Storage.mk.injEq, List.replicate_zero, List.nil_append, List.append_nil]
  have hlen : (l.take p ++ vs.take (N - l.length)).length = p + (N - l.length) := by
    simp only [List.length_append, List.length_take, Nat.min_eq_left hp]
    omega
  refine ⟨?_, by trivial⟩
  have hfirst : p + (N - l.length) = ((l.take p ++ vs.take (N - l.length)).map some).length := by
    simp only [List.length_map, hlen]
  rw [hfirst]
  have hk : N - ((l.take p ++ vs.take (N - l.length)).map some).length
      = ((l.drop p).map some : List (Option α)).length := by
    simp only [List.length_map, hlen, List.length_drop]
    omega
  rw [hk, destroySlots_append _ _ _ (le_refl _)]
  have hdrop : (((l.drop p).map some : List (Option α))).drop ((l.drop p).map some).length
      = [] := List.drop_length _
  rw [hdrop]
  simp only [List.append_nil, List.length_map, List.length_drop, hlen]
  have hcount : l.length - p = N - (p + (N - l.length)) := by omega
  rw [hcount]

/-- The shift-left loop of `erase`: with kept values `a`, a stale window `e`
(the gap between write and read cursor, `e ≠ []`), and the source tail `d`
still to copy, the loop copies all of `d` down; the final stale window holds
the last `e.length` values of `e ++ d`. -/
theorem eraseLoop_spec (d : List α) (a e : List α) (R : List (Option α)) (S : Nat)
    (he : 1 ≤ e.length) :
    eraseLoop ⟨(a ++ (e ++ d)).map some ++ R, S⟩ a.length (a.length + e.length) d.length
      = (⟨((a ++ d) ++ (e ++ d).drop d.length).map some ++ R, S⟩, a.length + d.length) := by
  induction d generalizing a e with
  | nil =>
    simp [eraseLoop]
  | cons x d ih =>
    match e, he with
    | y :: e2, _ =>
      have hget : (⟨(a ++ ((y :: e2) ++ x :: d)).map some ++ R, S⟩ : Storage α).get
          (a.length + (e2.length + 1)) = some x := by
        unfold Storage.get
        simp only []
        have hsplit : (a ++ ((y :: e2) ++ x :: d)).map some ++ R
            = (a ++ (y :: e2)).map some ++ (some x :: (d.map some ++ R)) := by
          simp
        rw [hsplit]
        have hlen : a.length + (e2.length + 1) = ((a ++ (y :: e2)).map some).length := by
          simp
        rw [hlen, getD_append_len]
      have hset : ((a ++ ((y :: e2) ++ x :: d)).map some ++ R).set a.length (some x)
          = ((a ++ [x]) ++ ((e2 ++ [x]) ++ d)).map some ++ R := by
        have hsplit : (a ++ ((y :: e2) ++ x :: d)).map some ++ R
            = a.map some ++ (some y :: ((e2 ++ x :: d).map some ++ R)) := by
          simp
        rw [hsplit]
        have hlen : a.length = (a.map some).length := by simp
        rw [hlen, set_append_len]
        simp
      simp only [eraseLoop, List.length_cons, hget, hset]
      have hdst : a.length + 1 = (a ++ [x]).length := by simp
      have hsrc : a.length + (e2.length + 1) + 1 = (a ++ [x]).length + (e2 ++ [x]).length := by
        simp
        omega
      rw [hdst, hsrc, ih (a ++ [x]) (e2 ++ [x]) (by simp)]
      have h1 : (a ++ [x]) ++ d = a ++ x :: d := by simp
      have h2 : ((e2 ++ [x]) ++ d).drop d.length = ((y :: e2) ++ x :: d).drop (x :: d).length := by
        have h3 : (y :: e2) ++ x :: d = y :: (e2 ++ x :: d) := by simp
        rw [h3]
        simp only [List.length_cons, List.drop_succ_cons]
        have h4 : (e2 ++ [x]) ++ d = e2 ++ x :: d := by simp
        rw [h4]
      rw [h1, h2]
      have h5 : (a ++ [x]).length + d.length = a.length + (x :: d).length := by
        simp
        omega
      rw [h5]
      simp only [List.length_cons]

/-- `inplace_vector::erase(first, last)` on a well-formed container removes
exactly the values in `[first, last)` and preserves the order of the rest. -/
theorem erase_range_eq (N : Nat) (m : List α) (p q : Nat)
    (hpq : p < q) (hq : q ≤ m.length) (hN : m.length ≤ N) :
    erase_range (ofList N m) p q = ofList N (m.take p ++ m.drop q) := by
  have hp : p ≤ m.length := by omega
  have hd : (m.drop p).take (q - p) ++ m.drop q = m.drop p := by
    have h1 : m.drop q = (m.drop p).drop (q - p) := by
      rw [List.drop_drop]
      congr 1
      omega
    rw [h1, List.take_append_drop]
  have hloop := eraseLoop_spec (m.drop q) (m.take p) ((m.drop p).take (q - p))
    (List.replicate (N - m.length) none) m.length
    (by simp only [List.length_take, List.length_drop]; omega)
  rw [show (m.take p ++ ((m.drop p).take (q - p) ++ m.drop q)) = m from by
    rw [hd, List.take_append_drop]] at hloop
  have hel : ((m.drop p).take (q - p)).length = q - p := by
    simp only [List.length_take, List.length_drop]
    omega
  rw [length_take_of_le m p hp, hel] at hloop
  have hsrc : p + (q - p) = q := by omega
  rw [hsrc] at hloop
  unfold erase_range
  have hsz : (ofList N m).size_ = m.length := rfl
  rw [hsz]
  have hofl : ofList N m = ⟨m.map some ++ List.replicate (N - m.length) none, m.length⟩ := rfl
  rw [hofl]
  have hfuel : m.length - q = (m.drop q).length := by simp
  rw [hfuel]
  simp only [hloop]
  unfold Storage.destroy Storage.set_size ofList
  simp only [Storage.mk.injEq]
  constructor
  · have hfirst : p + (m.drop q).length
        = (((m.take p ++ m.drop q)).map some : List (Option α)).length := by
      simp only [List.length_map, List.length_append, List.length_drop,
        length_take_of_le m p hp]
    rw [hfirst]
    have hassoc : ((m.take p ++ m.drop q) ++
          ((m.drop p).take (q - p) ++ m.drop q).drop (m.drop q).length).map some
          ++ List.replicate (N - m.length) none
        = ((m.take p ++ m.drop q)).map some ++
          ((((m.drop p).take (q - p) ++ m.drop q).drop (m.drop q).length).map some
            ++ List.replicate (N - m.length) none) := by
      simp
    rw [hassoc]
    have hk : m.length - ((m.take p ++ m.drop q).map some).length
        = ((((m.drop p).take (q - p) ++ m.drop q).drop (m.drop q).length).map some
            : List (Option α)).length := by
      simp only [List.length_map, List.length_append, List.length_drop, List.length_take,
        length_take_of_le m p hp]
      omega
    rw [hk, destroySlots_append _ _ _ (by simp)]
    rw [drop_len_append]
    have hKlen : ((((m.drop p).take (q - p) ++ m.drop q).drop (m.drop q).length).map some
        : List (Option α)).length = q - p := by
      simp only [List.length_map, List.length_drop, List.length_append, List.length_take]
      omega
    rw [hKlen, ← List.replicate_add]
    have hcnt : q - p + (N - m.length) = N - ((m.take p ++ m.drop q) : List α).length := by
      simp only [List.length_append, List.length_drop, length_take_of_le m p hp]
      omega
    rw [hcnt]
  · simp only [List.length_append, List.length_drop, length_take_of_le m p hp]

theorem getD_map_some_of_drop (lb : List α) (i : Nat) (y : α) (rest : List α)
    (h : lb.drop i = y :: rest) : (lb.map some).getD i none = some y := by
  induction lb generalizing i with
  | nil =>
    rw [List.drop_nil] at h
    exact absurd h (by simp)
  | cons a lb ih =>
    cases i with
    | zero =>
      rw [List.drop_zero] at h
      rw [List.cons.injEq] at h
      simp [h.1]
    | succ i =>
      rw [List.drop_succ_cons] at h
      simpa using ih i h

/-- Reading a live slot of a well-formed container. -/
theorem get_ofList_drop (N : Nat) (lb : List α) (i : Nat) (y : α) (rest : List α)
    (h : lb.drop i = y :: rest) : (ofList N lb).get i = some y := by
  have hi : i < lb.length := by
    by_contra hc
    rw [List.drop_eq_nil_of_le (by omega)] at h
    exact absurd h (by simp)
  unfold ofList Storage.get
  simp only []
  rw [getD_append_lt _ _ _ _ (by simpa using hi)]
  exact getD_map_some_of_drop lb i y rest h

/-- `unchecked_emplace_back` on a well-formed, non-full container appends. -/
theorem emplace_ofList (N : Nat) (u : List α) (y : α) (h : u.length < N) :
    unchecked_emplace_back (ofList N u) y = ofList N (u ++ [y]) := by
  rw [ofList_eq_midState N u (N - u.length) 0 (by omega)]
  rw [emplace_midState u (N - u.length) [] 0 y (by omega)]
  rw [midState_closed u (N - u.length - 1) 0 [y]]
  congr 1
  simp only [List.length_cons, List.length_nil]
  omega

theorem foldl_emplace_ofList (vs : List α) (N : Nat) (u : List α)
    (h : u.length + vs.length ≤ N) :
    vs.foldl unchecked_emplace_back (ofList N u) = ofList N (u ++ vs) := by
  induction vs generalizing u with
  | nil => simp
  | cons z vs ih =>
    rw [List.foldl_cons, emplace_ofList N u z (by simp at h; omega),
      ih (u ++ [z]) (by simp at h ⊢; omega)]
    simp

theorem resizeGrowLoop_spec (k : Nat) (N : Nat) (u : List α) (v : α)
    (h : u.length + k ≤ N) :
    resizeGrowLoop (ofList N u) v k = ofList N (u ++ List.replicate k v) := by
  induction k generalizing u with
  | zero => simp [resizeGrowLoop]
  | succ k ih =>
    unfold resizeGrowLoop
    rw [emplace_ofList N u v (by omega), ih (u ++ [v]) (by simp; omega)]
    congr 1
    rw [List.replicate_succ]
    simp

/-- `storage::destroy(count, size)` followed by `size(count)`: the shrink step
shared by `resize` and move assignment. -/
theorem destroy_shrink (N : Nat) (l : List α) (count : Nat)
    (h1 : count ≤ l.length) (hN : l.length ≤ N) :
    ((ofList N l).destroy count l.length).set_size count = ofList N (l.take count) := by
  unfold ofList Storage.destroy Storage.set_size
  simp only [Storage.mk.injEq]
  refine ⟨?_, (length_take_of_le l count h1).symm⟩
  have hdecomp : (l.take count).map some ++
        ((l.drop count).map some ++ List.replicate (N - l.length) none)
      = l.map some ++ List.replicate (N - l.length) (none : Option α) := by
    rw [← List.append_assoc, ← List.map_append, List.take_append_drop]
  have hds := destroySlots_append (l.length - count) ((l.take count).map some)
    ((l.drop count).map some ++ List.replicate (N - l.length) (none : Option α))
    (by simp only [List.length_append, List.length_map, List.length_drop,
      List.length_replicate]; omega)
  have hA : ((l.take count).map some : List (Option α)).length = count := by
    simp only [List.length_map, length_take_of_le l count h1]
  rw [hA] at hds
  rw [← hdecomp, hds]
  have hdd : (((l.drop count).map some : List (Option α)) ++
      List.replicate (N - l.length) none).drop (l.length - count)
      = List.replicate (N - l.length) none := by
    have h3 := drop_len_append ((l.drop count).map some : List (Option α))
      (List.replicate (N - l.length) (none : Option α))
    simpa using h3
  rw [hdd, ← List.replicate_add]
  have hcnt : l.length - count + (N - l.length) = N - (l.take count).length := by
    rw [length_take_of_le l count h1]
    omega
  rw [hcnt]

/-- `resize(count, value)` shrinking (or keeping) the container. -/
theorem resize_shrink (N : Nat) (l : List α) (count : Nat) (v : α)
    (h1 : count ≤ l.length) (hN : l.length ≤ N) :
    resize (ofList N l) count v = ofList N (l.take count) := by
  unfold resize
  rw [size_ofList]
  rcases Nat.lt_or_ge count l.length with hlt | hge
  · rw [if_pos hlt, destroy_shrink N l count h1 hN]
    show resizeGrowLoop (ofList N (l.take count)) v (count - (ofList N (l.take count)).size_)
      = ofList N (l.take count)
    rw [size_ofList, length_take_of_le l count h1, Nat.sub_self]
    rfl
  · have hcl : count = l.length := by omega
    rw [if_neg (by omega)]
    show resizeGrowLoop (ofList N l) v (count - (ofList N l).size_) = ofList N (l.take count)
    rw [size_ofList, hcl, Nat.sub_self, List.take_length]
    rfl

/-- `resize(count, value)` growing the container fills with `value`. -/
theorem resize_grow (N : Nat) (l : List α) (count : Nat) (v : α)
    (h1 : l.length ≤ count) (h2 : count ≤ N) :
    resize (ofList N l) count v = ofList N (l ++ List.replicate (count - l.length) v) := by
  unfold resize
  rw [if_neg (by rw [size_ofList]; omega)]
  show resizeGrowLoop (ofList N l) v (count - (ofList N l).size_)
    = ofList N (l ++ List.replicate (count - l.length) v)
  rw [size_ofList]
  exact resizeGrowLoop_spec (count - l.length) N l v (by omega)

/-- The move-assignment overwrite loop copies `v.length` values from the
source, starting at index `u.length`, over the live prefix. -/
theorem moveAssignCopyLoop_spec (v : List α) (u : List α) (R : List (Option α)) (S N : Nat)
    (lb : List α) (h : u.length + v.length ≤ lb.length) :
    moveAssignCopyLoop ⟨(u ++ v).map some ++ R, S⟩ (ofList N lb) u.length v.length
      = ⟨(u ++ (lb.drop u.length).take v.length).map some ++ R, S⟩ := by
  induction v generalizing u with
  | nil => simp [moveAssignCopyLoop]
  | cons z v ih =>
    obtain ⟨y, rest, hdrop⟩ : ∃ y rest, lb.drop u.length = y :: rest := by
      cases hD : lb.drop u.length with
      | nil =>
        exfalso
        have h2 := congrArg List.length hD
        simp only [List.length_drop, List.length_nil, List.length_cons] at h h2
        omega
      | cons y rest => exact ⟨y, rest, rfl⟩
    rw [show (z :: v).length = v.length + 1 from rfl]
    simp only [moveAssignCopyLoop]
    rw [get_ofList_drop N lb u.length y rest hdrop]
    have hset : ((u ++ z :: v).map some ++ R).set u.length (some y)
        = ((u ++ [y]) ++ v).map some ++ R := by
      have hsplit : (u ++ z :: v).map some ++ R
          = u.map some ++ (some z :: (v.map some ++ R)) := by
        simp
      rw [hsplit]
      have hlen : u.length = (u.map some).length := by simp
      rw [hlen, set_append_len]
      simp
    rw [hset]
    have hlen2 : u.length + 1 = (u ++ [y]).length := by simp
    have harg : (u ++ [y]).length + v.length ≤ lb.length := by
      simp only [List.length_cons] at h
      simp only [List.length_append, List.length_cons, List.length_nil]
      omega
    rw [hlen2, ih (u ++ [y]) harg]
    have hd2 : lb.drop (u ++ [y]).length = rest := by
      have h3 := List.drop_drop 1 u.length lb
      rw [hdrop] at h3
      simp only [List.drop_succ_cons, List.drop_zero] at h3
      have hlen3 : (u ++ [y]).length = u.length + 1 := by
        simp only [List.length_append, List.length_cons, List.length_nil]
      rw [hlen3]
      exact h3.symm
    rw [hd2]
    have hrhs : (u ++ [y]) ++ rest.take v.length
        = u ++ (lb.drop u.length).take (v.length + 1) := by
      rw [hdrop]
      simp [List.take_succ_cons]
    rw [hrhs]

/-- The move-assignment tail loop constructs `k` further values from the
source at the top of the target. -/
theorem moveAssignTailLoop_spec (k : Nat) (N : Nat) (u : List α) (lb : List α)
    (h1 : u.length + k ≤ lb.length) (h2 : u.length + k ≤ N) :
    moveAssignTailLoop (ofList N u) (ofList N lb) k
      = ofList N (u ++ (lb.drop u.length).take k) := by
  induction k generalizing u with
  | zero => simp [moveAssignTailLoop]
  | succ k ih =>
    obtain ⟨y, rest, hdrop⟩ : ∃ y rest, lb.drop u.length = y :: rest := by
      cases hD : lb.drop u.length with
      | nil =>
        exfalso
        have h3 := congrArg List.length hD
        simp only [List.length_drop, List.length_nil] at h3
        omega
      | cons y rest => exact ⟨y, rest, rfl⟩
    simp only [moveAssignTailLoop, size_ofList]
    rw [get_ofList_drop N lb u.length y rest hdrop]
    have hbody : ((ofList N u).construct_from u.length (some y)).set_size (u.length + 1)
        = unchecked_emplace_back (ofList N u) y := rfl
    rw [hbody, emplace_ofList N u y (by omega)]
    rw [ih (u ++ [y])
      (by simp only [List.length_append, List.length_cons, List.length_nil]; omega)
      (by simp only [List.length_append, List.length_cons, List.length_nil]; omega)]
    have hd2 : lb.drop (u ++ [y]).length = rest := by
      have h3 := List.drop_drop 1 u.length lb
      rw [hdrop] at h3
      simp only [List.drop_succ_cons, List.drop_zero] at h3
      have hlen3 : (u ++ [y]).length = u.length + 1 := by
        simp only [List.length_append, List.length_cons, List.length_nil]
      rw [hlen3]
      exact h3.symm
    rw [hd2]
    congr 1
    rw [hdrop]
    simp [List.take_succ_cons]

/-- The overwrite loop on a whole well-formed prefix. -/
theorem moveAssignCopyLoop_ofList (N : Nat) (la2 lb : List α) (h : la2.length ≤ lb.length) :
    moveAssignCopyLoop (ofList N la2) (ofList N lb) 0 la2.length
      = ofList N (lb.take la2.length) := by
  have hcopy := moveAssignCopyLoop_spec la2 [] (List.replicate (N - la2.length) none)
    la2.length N lb (by simpa using h)
  simp only [List.nil_append, List.length_nil, List.drop_zero] at hcopy
  have h1 : ofList N la2
      = ⟨la2.map some ++ List.replicate (N - la2.length) none, la2.length⟩ := rfl
  rw [h1, hcopy]
  unfold ofList
  simp only [Storage.mk.injEq]
  refine ⟨?_, (length_take_of_le lb la2.length h).symm⟩
  congr 2
  rw [length_take_of_le lb la2.length h]

/-- `storage::operator=(storage&&)`, non-trivial overload, on well-formed
containers: the target takes the source's values, the source's `size_` is
zeroed (its slots are moved-from but not destroyed). -/
theorem move_assign_spec (N : Nat) (la lb : List α) (ha : la.length ≤ N) (hb : lb.length ≤ N) :
    move_assign (ofList N la) (ofList N lb) = (ofList N lb, (ofList N lb).set_size 0) := by
  unfold move_assign
  rw [size_ofList N la, size_ofList N lb]
  rcases Nat.lt_or_ge lb.length la.length with hgt | hle
  · rw [if_pos hgt, destroy_shrink N la lb.length (by omega) ha]
    show (moveAssignTailLoop
        (moveAssignCopyLoop (ofList N (la.take lb.length)) (ofList N lb) 0
          (ofList N (la.take lb.length)).size_) (ofList N lb)
        (lb.length - (moveAssignCopyLoop (ofList N (la.take lb.length)) (ofList N lb) 0
          (ofList N (la.take lb.length)).size_).size_),
      (ofList N lb).set_size 0) = (ofList N lb, (ofList N lb).set_size 0)
    rw [size_ofList N (la.take lb.length), length_take_of_le la lb.length (by omega)]
    have hc := moveAssignCopyLoop_ofList N (la.take lb.length) lb
      (by rw [length_take_of_le la lb.length (by omega)])
    rw [length_take_of_le la lb.length (by omega), List.take_length] at hc
    simp only [hc, size_ofList N lb, Nat.sub_self]
    rw [show moveAssignTailLoop (ofList N lb) (ofList N lb) 0 = ofList N lb from rfl]
  · rw [if_neg (by omega)]
    show (moveAssignTailLoop
        (moveAssignCopyLoop (ofList N la) (ofList N lb) 0 (ofList N la).size_) (ofList N lb)
        (lb.length - (moveAssignCopyLoop (ofList N la) (ofList N lb) 0
          (ofList N la).size_).size_),
      (ofList N lb).set_size 0) = (ofList N lb, (ofList N lb).set_size 0)
    rw [size_ofList N la]
    have hc := moveAssignCopyLoop_ofList N la lb hle
    simp only [hc, size_ofList N (lb.take la.length),
      length_take_of_le lb la.length hle]
    rw [moveAssignTailLoop_spec (lb.length - la.length) N (lb.take la.length) lb
      (by rw [length_take_of_le lb la.length hle]; omega)
      (by rw [length_take_of_le lb la.length hle]; omega)]
    have hfin : lb.take la.length ++
        (lb.drop (lb.take la.length).length).take (lb.length - la.length) = lb := by
      rw [length_take_of_le lb la.length hle]
      have hdl : (lb.length - la.length) = (lb.drop la.length).length := by simp
      rw [hdl, List.take_length, List.take_append_drop]
    rw [hfin]

theorem assignFillLoop_spec (tl : List α) (u : List α) (v : α) (R : List (Option α)) (S : Nat) :
    assignFillLoop ⟨(u ++ tl).map some ++ R, S⟩ v u.length tl.length
      = ⟨(u ++ List.replicate tl.length v).map some ++ R, S⟩ := by
  induction tl generalizing u with
  | nil => simp [assignFillLoop]
  | cons z tl ih =>
    rw [show (z :: tl).length = tl.length + 1 from rfl]
    simp only [assignFillLoop]
    have hset : ((u ++ z :: tl).map some ++ R).set u.length (some v)
        = ((u ++ [v]) ++ tl).map some ++ R := by
      have hsplit : (u ++ z :: tl).map some ++ R
          = u.map some ++ (some z :: (tl.map some ++ R)) := by
        simp
      rw [hsplit]
      have hlen : u.length = (u.map some).length := by simp
      rw [hlen, set_append_len]
      simp
    rw [hset]
    have hlen2 : u.length + 1 = (u ++ [v]).length := by simp
    rw [hlen2, ih (u ++ [v])]
    have hrep : (u ++ [v]) ++ List.replicate tl.length v
        = u ++ List.replicate (tl.length + 1) v := by
      rw [List.replicate_succ]
      simp
    rw [hrep]

/-- `assign(count, value)` on a well-formed container yields `count` copies of
`value`. -/
theorem assign_count_spec (N : Nat) (l : List α) (count : Nat) (v : α)
    (hl : l.length ≤ N) (hc : count ≤ N) :
    assign_count N (ofList N l) count v = .ok (ofList N (List.replicate count v)) := by
  unfold assign_count
  have hcap : capacity_check N count = .ok () := by
    unfold capacity_check
    rw [if_neg (by omega)]
  simp only [hcap, size_ofList]
  have hmle : min l.length count ≤ l.length := by omega
  have hof : ofList N l = ⟨(l.take (min l.length count)).map some ++
      ((l.drop (min l.length count)).map some ++ List.replicate (N - l.length) none),
      l.length⟩ := by
    unfold ofList
    simp only [Storage.mk.injEq]
    refine ⟨?_, by trivial⟩
    rw [← List.append_assoc, ← List.map_append, List.take_append_drop]
  rw [hof]
  have hfill := assignFillLoop_spec (l.take (min l.length count)) [] v
    ((l.drop (min l.length count)).map some ++ List.replicate (N - l.length) none) l.length
  simp only [List.nil_append, List.length_nil] at hfill
  rw [length_take_of_le l (min l.length count) hmle] at hfill
  rw [hfill]
  have hmid : (⟨(List.replicate (min l.length count) v).map some ++
      ((l.drop (min l.length count)).map some ++ List.replicate (N - l.length) none),
      l.length⟩ : Storage α)
      = ofList N (List.replicate (min l.length count) v ++ l.drop (min l.length count)) := by
    unfold ofList
    simp only [Storage.mk.injEq]
    constructor
    · rw [List.map_append, List.append_assoc]
      congr 3
      simp only [List.length_append, List.length_replicate, List.length_drop]
      omega
    · simp only [List.length_append, List.length_replicate, List.length_drop]
      omega
  rw [hmid]
  rcases le_or_lt count l.length with hcl | hlc
  · have hmc : min l.length count = count := by omega
    rw [hmc]
    rw [resize_shrink N (List.replicate count v ++ l.drop count) count v
      (by simp only [List.length_append, List.length_replicate, List.length_drop]; omega)
      (by simp only [List.length_append, List.length_replicate, List.length_drop]; omega)]
    have h10 := take_len_append (List.replicate count v) (l.drop count)
    rw [List.length_replicate] at h10
    rw [h10]
  · have hmc : min l.length count = l.length := by omega
    rw [hmc, List.drop_length, List.append_nil]
    rw [resize_grow N (List.replicate l.length v) count v
      (by rw [List.length_replicate]; omega) hc]
    rw [List.length_replicate]
    have h11 : List.replicate l.length v ++ List.replicate (count - l.length) v
        = List.replicate count v := by
      rw [← List.replicate_add]
      congr 1
      omega
    rw [h11]

/-- `emplace_back` / `push_back` succeed below capacity. -/
theorem emplace_back_ok (N : Nat) (l : List α) (v : α) (h : l.length < N) :
    emplace_back N (ofList N l) v = .ok (ofList N (l ++ [v])) := by
  unfold emplace_back
  rw [size_ofList]
  have hcap : capacity_check N (l.length + 1) = .ok () := by
    unfold capacity_check
    rw [if_neg (by omega)]
  simp only [hcap]
  rw [emplace_ofList N l v h]

/-- `emplace_back` / `push_back` on a full container: `bad_alloc`, state
untouched. -/
theorem emplace_back_err (N : Nat) (l : List α) (v : α) (h : N ≤ l.length) :
    emplace_back N (ofList N l) v = .error (.badAlloc, ofList N l) := by
  unfold emplace_back
  rw [size_ofList]
  have hcap : capacity_check N (l.length + 1) = .error .badAlloc := by
    unfold capacity_check
    rw [if_pos (by omega)]
  simp only [hcap]

/-- `try_emplace_back` on a full container: null pointer, state untouched. -/
theorem try_emplace_back_full (N : Nat) (l : List α) (v : α) (h : N ≤ l.length) :
    try_emplace_back N (ofList N l) v = (none, ofList N l) := by
  unfold try_emplace_back
  rw [size_ofList, if_pos (by omega)]

/-- `append_range` succeeds when the final size fits. -/
theorem append_range_ok (N : Nat) (l vs : List α) (h : l.length + vs.length ≤ N) :
    append_range N (ofList N l) vs = .ok (ofList N (l ++ vs)) := by
  unfold append_range
  rw [size_ofList]
  have hcap : capacity_check N (l.length + vs.length) = .ok () := by
    unfold capacity_check
    rw [if_neg (by omega)]
  simp only [hcap]
  rw [foldl_emplace_ofList vs N l h]

/-- Single-element `insert` past capacity: `bad_alloc` before any mutation. -/
theorem insert_err (N : Nat) (l : List α) (p : Nat) (v : α) (h : N < l.length + 1) :
    insert N (ofList N l) p v = .error (.badAlloc, ofList N l) := by
  unfold insert
  rw [size_ofList]
  have hcap : capacity_check N (l.length + 1) = .error .badAlloc := by
    unfold capacity_check
    rw [if_pos (by omega)]
  simp only [hcap]

/-- Sized `insert` overloads past capacity: `bad_alloc` before any mutation. -/
theorem insert_list_err (N : Nat) (l : List α) (p : Nat) (vs : List α)
    (h : N < l.length + vs.length) :
    insert_list N (ofList N l) p vs = .error (.badAlloc, ofList N l) := by
  unfold insert_list
  rw [size_ofList]
  have hcap : capacity_check N (l.length + vs.length) = .error .badAlloc := by
    unfold capacity_check
    rw [if_pos (by omega)]
  simp only [hcap]

theorem stdEqual_iff [DecidableEq α] (xs ys : List α) : stdEqual xs ys = true ↔ xs = ys := by
  induction xs generalizing ys with
  | nil => cases ys <;> simp [stdEqual]
  | cons x xs ih =>
    cases ys with
    | nil => simp [stdEqual]
    | cons y ys =>
      simp only [stdEqual, Bool.and_eq_true, decide_eq_true_eq, List.cons.injEq]
      rw [ih ys]

/-- `operator==` on well-formed containers decides equality of the value
lists. -/
theorem vec_eq_ofList [DecidableEq α] (N M : Nat) (la lb : List α) :
    vec_eq (ofList N la) (ofList M lb) = true ↔ la = lb := by
  unfold vec_eq
  rw [values_ofList, values_ofList, stdEqual_iff]

theorem get?_append_len {β : Type} (A : List β) (b : β) (B : List β) :
    (A ++ b :: B).get? A.length = some b := by
  induction A with
  | nil => rfl
  | cons a A ih => simpa using ih

theorem get?_append_left {β : Type} (A B : List β) (i : Nat) (h : i < A.length) :
    (A ++ B).get? i = A.get? i := by
  induction A generalizing i with
  | nil => simp at h
  | cons a A ih =>
    cases i with
    | zero => rfl
    | succ i => simpa using ih i (by simpa using h)

theorem get?_append_ge {β : Type} (A B : List β) (i : Nat) (h : A.length ≤ i) :
    (A ++ B).get? i = B.get? (i - A.length) := by
  induction A generalizing i with
  | nil => simp
  | cons a A ih =>
    cases i with
    | zero => simp at h
    | succ i =>
      have h2 := ih i (by simpa using h)
      simpa using h2

theorem get?_take_lt (l : List α) (p i : Nat) (h : i < p) :
    (l.take p).get? i = l.get? i := by
  induction l generalizing p i with
  | nil => simp
  | cons a l ih =>
    cases p with
    | zero => omega
    | succ p =>
      cases i with
      | zero => rfl
      | succ i => simpa using ih p i (by omega)

theorem get?_drop_add (l : List α) (p i : Nat) :
    (l.drop p).get? i = l.get? (p + i) := by
  induction l generalizing p with
  | nil => simp
  | cons a l ih =>
    cases p with
    | zero => simp
    | succ p =>
      rw [List.drop_succ_cons]
      rw [ih p]
      have h1 : p + 1 + i = (p + i) + 1 := by omega
      rw [h1]
      rfl

theorem list_eq_iff_len_get (la lb : List α) :
    la = lb ↔ (la.length = lb.length ∧ ∀ i, i < la.length → la.get? i = lb.get? i) := by
  constructor
  · rintro rfl
    exact ⟨rfl, fun _ _ => rfl⟩
  · rintro ⟨hlen, hget⟩
    apply List.ext
    intro n
    rcases lt_or_ge n la.length with hn | hn
    · exact hget n hn
    · rw [List.get?_eq_none.mpr hn, List.get?_eq_none.mpr (by omega)]

theorem getD_append_ge {β : Type} (A B : List β) (i : Nat) (d : β) (h : A.length ≤ i) :
    (A ++ B).getD i d = B.getD (i - A.length) d := by
  induction A generalizing i with
  | nil => simp
  | cons a A ih =>
    cases i with
    | zero => simp at h
    | succ i =>
      have h2 := ih i (by simpa using h)
      simpa using h2

theorem getD_replicate_self {β : Type} (n i : Nat) (d : β) :
    (List.replicate n d).getD i d = d := by
  induction n generalizing i with
  | zero => simp
  | succ n ih =>
    cases i with
    | zero => rfl
    | succ i => simpa using ih i

theorem isSome_getD_map_some (u : List α) (i : Nat) :
    ((u.map some).getD i none).isSome ↔ i < u.length := by
  induction u generalizing i with
  | nil => simp
  | cons a u ih =>
    cases i with
    | zero => simp
    | succ i => simpa using ih i

/-- Slot `i` of a mid-mutation state is live exactly when it lies in the
prefix counted by `size_` or in the parked attic zone. -/
theorem midState_get_isSome (u : List α) (g : Nat) (w : List α) (t i : Nat) :
    ((midState u g w t).get i).isSome
      ↔ (i < u.length ∨ (u.length + g ≤ i ∧ i < u.length + g + w.length)) := by
  unfold midState Storage.get
  simp only []
  rcases lt_or_ge i u.length with h1 | h1
  · rw [getD_append_lt _ _ _ _ (by simpa using h1)]
    rw [isSome_getD_map_some u i]
    omega
  · rw [getD_append_ge _ _ _ _ (by simpa using h1)]
    simp only [List.length_map]
    rcases lt_or_ge (i - u.length) g with h2 | h2
    · rw [getD_append_lt _ _ _ _ (by simpa using h2)]
      rw [getD_replicate_self]
      simp only [Option.isSome_none, Bool.false_eq_true, false_iff]
      omega
    · rw [getD_append_ge _ _ _ _ (by simpa using h2)]
      simp only [List.length_replicate]
      rcases lt_or_ge (i - u.length - g) w.length with h3 | h3
      · rw [getD_append_lt _ _ _ _ (by simpa using h3)]
        rw [isSome_getD_map_some w (i - u.length - g)]
        omega
      · rw [getD_append_ge _ _ _ _ (by simpa using h3)]
        rw [getD_replicate_self]
        simp only [Option.isSome_none, Bool.false_eq_true, false_iff]
        omega

/-- The live prefix of a mid-mutation state holds exactly the values `u`. -/
theorem midState_values (u : List α) (g : Nat) (w : List α) (t : Nat) :
    (midState u g w t).values = u := by
  unfold midState Storage.values
  simp only []
  have h1 : (u.map some ++
      (List.replicate g (none : Option α) ++ (w.map some ++ List.replicate t none))).take u.length
      = u.map some := by
    have h2 := take_len_append (u.map some)
      (List.replicate g (none : Option α) ++ (w.map some ++ List.replicate t none))
    simpa using h2
  rw [h1, filterMap_id_map_some]

/-- The values currently parked in the attic's `[begin_, end_)` zone. -/
def parkedValues (s : Storage α) (a : Attic) : List α :=
  ((s.data_.take a.end_).drop a.begin_).filterMap id

/-- The attic zone of a mid-mutation state holds exactly the parked values
`w`. -/
theorem midState_parkedValues (u : List α) (g : Nat) (w : List α) (t : Nat) :
    parkedValues (midState u g w t) ⟨u.length + g, u.length + g + w.length⟩ = w := by
  unfold parkedValues midState
  simp only []
  have hdecomp : u.map some ++
      (List.replicate g (none : Option α) ++ (w.map some ++ List.replicate t none))
      = ((u.map some ++ List.replicate g none) ++ w.map some) ++ List.replicate t none := by
    simp
  rw [hdecomp]
  have htake : (((u.map some ++ List.replicate g (none : Option α)) ++ w.map some)
        ++ List.replicate t none).take (u.length + g + w.length)
      = (u.map some ++ List.replicate g none) ++ w.map some := by
    have h2 := take_len_append ((u.map some ++ List.replicate g (none : Option α)) ++ w.map some)
      (List.replicate t none)
    have h3 : ((u.map some ++ List.replicate g (none : Option α)) ++ w.map some).length
        = u.length + g + w.length := by
      simp only [List.length_append, List.length_map, List.length_replicate]
    rw [h3] at h2
    exact h2
  rw [htake]
  have hdrop : ((u.map some ++ List.replicate g (none : Option α)) ++ w.map some).drop
        (u.length + g) = w.map some := by
    have h2 := drop_len_append (u.map some ++ List.replicate g (none : Option α)) (w.map some)
    rw [show (u.map some ++ List.replicate g (none : Option α)).length = u.length + g
        from by simp] at h2
    exact h2
  rw [hdrop, filterMap_id_map_some]

/-- The attic destructor destroys precisely the parked zone: the prefix is
untouched and only `[begin_, end_)` is reset to raw memory. -/
theorem attic_dtor_midState (u : List α) (g : Nat) (w : List α) (t : Nat) :
    attic_dtor (midState u g w t) ⟨u.length + g, u.length + g + w.length⟩
      = midState u (g + w.length) ([] : List α) t := by
  unfold attic_dtor Storage.destroy midState
  simp only [Storage.mk.injEq]
  refine ⟨?_, by trivial⟩
  have hfuel : u.length + g + w.length - (u.length + g) = w.length := by omega
  rw [hfuel]
  have hdecomp : u.map some ++
      (List.replicate g (none : Option α) ++ (w.map some ++ List.replicate t none))
      = (u.map some ++ List.replicate g none) ++ (w.map some ++ List.replicate t none) := by
    simp
  rw [hdecomp]
  have hfirst : u.length + g = (u.map some ++ List.replicate g (none : Option α)).length := by
    simp
  rw [hfirst]
  rw [destroySlots_append _ _ _ (by simp)]
  have hdrop : ((w.map some : List (Option α)) ++ List.replicate t none).drop w.length
      = List.replicate t none := by
    have h2 := drop_len_append (w.map some : List (Option α)) (List.replicate t none)
    rw [List.length_map] at h2
    exact h2
  rw [hdrop]
  rw [List.replicate_add]
  simp
  omega

/-- Claim C1: for every `inplace_vector` with size strictly below its capacity
`N` and every position `p ≤ size`, `insert(p, v)` increases the size by
exactly one, places `v` at index `p`, leaves the elements below `p`
unchanged, and moves the elements previously at `p..size-1` to
`p+1..size` in their original relative order. -/
theorem C1_insert_positional (N : Nat) (l : List α) (p : Nat) (v : α)
    (h1 : l.length < N) (h2 : p ≤ l.length) :
    ∃ s', insert N (ofList N l) p v = .ok s' ∧
      s'.size_ = l.length + 1 ∧
      s'.values.get? p = some v ∧
      (∀ i, i < p → s'.values.get? i = l.get? i) ∧
      (∀ i, p ≤ i → i < l.length → s'.values.get? (i + 1) = l.get? i) := by
  refine ⟨ofList N (l.take p ++ v :: l.drop p), insert_eq N l p v h2 h1, ?_, ?_, ?_, ?_⟩
  · rw [size_ofList, length_insert_list l p v h2]
  · rw [values_ofList]
    have h3 := get?_append_len (l.take p) v (l.drop p)
    rw [length_take_of_le l p h2] at h3
    exact h3
  · intro i hi
    rw [values_ofList]
    rw [get?_append_left _ _ _ (by rw [length_take_of_le l p h2]; omega)]
    exact get?_take_lt l p i hi
  · intro i hip hil
    rw [values_ofList]
    rw [get?_append_ge _ _ _ (by rw [length_take_of_le l p h2]; omega)]
    rw [length_take_of_le l p h2]
    have h4 : i + 1 - p = (i - p) + 1 := by omega
    rw [h4]
    rw [show ((v :: l.drop p).get? ((i - p) + 1)) = (l.drop p).get? (i - p) from rfl]
    rw [get?_drop_add]
    congr 1
    omega

theorem C1_witness :
    ∃ s', insert 4 (ofList 4 [10, 20, 30]) 1 (15 : Nat) = .ok s' ∧
      s'.size_ = ([10, 20, 30] : List Nat).length + 1 ∧
      s'.values.get? 1 = some 15 ∧
      (∀ i, i < 1 → s'.values.get? i = ([10, 20, 30] : List Nat).get? i) ∧
      (∀ i, 1 ≤ i → i < ([10, 20, 30] : List Nat).length →
        s'.values.get? (i + 1) = ([10, 20, 30] : List Nat).get? i) :=
  C1_insert_positional 4 [10, 20, 30] 1 15 (by decide) (by decide)

/-- Claim C2 counterexample: the input-iterator `insert` overload on a full
capacity-2 container raises `bad_alloc` but does NOT leave the container
unchanged — the attic destructor has destroyed both elements, leaving it
empty. -/
theorem C2_counterexample :
    insert_input 2 (ofList 2 [10, 20]) 0 [(30 : Nat)]
      = .error (.badAlloc, ofList 2 ([] : List Nat)) ∧
    (ofList 2 ([] : List Nat)).values ≠ (ofList 2 [10, 20] : Storage Nat).values ∧
    (ofList 2 ([] : List Nat)).size_ ≠ (ofList 2 [10, 20] : Storage Nat).size_ := by
  refine ⟨rfl, by decide, by decide⟩

/-- Claim C2 (amended): an `insert` whose final size would exceed the capacity
raises `bad_alloc`.  For the overloads that know the element count up front
(single element, `count` copies, random-access ranges, initializer lists) the
check precedes any mutation, so the container is observably unchanged.  The
input-iterator overload raises `bad_alloc` only upon exhaustion: the container
is left holding its first `pos` original values followed by the values
inserted before exhaustion, the parked tail having been destroyed. -/
theorem C2_insert_overflow (N : Nat) (l : List α) (p : Nat) (v : α) (vs : List α) :
    (N < l.length + 1 → insert N (ofList N l) p v = .error (.badAlloc, ofList N l)) ∧
    (N < l.length + vs.length →
      insert_list N (ofList N l) p vs = .error (.badAlloc, ofList N l)) ∧
    (p ≤ l.length → l.length ≤ N → N - l.length < vs.length →
      insert_input N (ofList N l) p vs
        = .error (.badAlloc, ofList N (l.take p ++ vs.take (N - l.length)))) :=
  ⟨insert_err N l p v, insert_list_err N l p vs, insert_input_err N l p vs⟩

theorem C2_witness :
    insert 2 (ofList 2 [10, 20]) 1 (30 : Nat) = .error (.badAlloc, ofList 2 [10, 20]) ∧
    insert_input 2 (ofList 2 [10, 20]) 0 [(30 : Nat)]
      = .error (.badAlloc, ofList 2 (([10, 20] : List Nat).take 0 ++ [30].take (2 - ([10, 20] : List Nat).length))) :=
  ⟨(C2_insert_overflow 2 [10, 20] 1 30 [30]).1 (by decide),
   (C2_insert_overflow 2 [10, 20] 0 30 [30]).2.2 (by decide) (by decide) (by decide)⟩

/-- Claim C4 (code bug): `resize(count)` with `count > N` performs NO capacity
check — it completes normally, incrementing `size_` past the capacity with
`unchecked_emplace_back` (an out-of-bounds write in the C++), instead of
raising the `bad_alloc` signal that `capacity_check` (used by every sibling
growing operation, and distinct from the out-of-range signal) would have
produced. -/
theorem C4_resize_missing_check :
    resize (ofList 2 ([] : List Nat)) 3 0 = ⟨[some 0, some 0], 3⟩ ∧
    (resize (ofList 2 ([] : List Nat)) 3 0).size_ = 3 ∧
    capacity_check 2 3 = .error .badAlloc ∧
    at_range_check (ofList 2 ([] : List Nat)) 3 = .error .outOfRange ∧
    VecError.badAlloc ≠ VecError.outOfRange :=
  ⟨rfl, rfl, rfl, rfl, by decide⟩

/-- Claim C5: on a container whose size equals its capacity `N`, a further
`push_back` / `emplace_back` raises `bad_alloc` leaving the container (hence
its size) unchanged, and `try_push_back` / `try_emplace_back` returns a null
pointer leaving the container unchanged. -/
theorem C5_full_append (N : Nat) (l : List α) (v : α) (h : l.length = N) :
    push_back N (ofList N l) v = .error (.badAlloc, ofList N l) ∧
    emplace_back N (ofList N l) v = .error (.badAlloc, ofList N l) ∧
    try_emplace_back N (ofList N l) v = (none, ofList N l) ∧
    (ofList N l).size_ = N :=
  ⟨emplace_back_err N l v (by omega), emplace_back_err N l v (by omega),
   try_emplace_back_full N l v (by omega), by rw [size_ofList, h]⟩

theorem C5_witness :
    push_back 2 (ofList 2 [1, 2]) (9 : Nat) = .error (.badAlloc, ofList 2 [1, 2]) ∧
    emplace_back 2 (ofList 2 [1, 2]) (9 : Nat) = .error (.badAlloc, ofList 2 [1, 2]) ∧
    try_emplace_back 2 (ofList 2 [1, 2]) (9 : Nat) = (none, ofList 2 [1, 2]) ∧
    (ofList 2 ([1, 2] : List Nat)).size_ = 2 :=
  C5_full_append 2 [1, 2] 9 (by decide)

/-- Claim C6 counterexample: for a trivially-move-assignable element type
(modelled by `Nat`, as with the `std::size_t` instantiations in the test
suite) the defaulted `storage` move assignment copies the members and leaves
the source untouched: after `a = std::move(b)`, `b`'s size is still 1, not
0. -/
theorem C6_counterexample :
    (move_assign_trivial (ofList 1 [(5 : Nat)]) (ofList 1 [7])).2.size_ = 1 ∧
    (1 : Nat) ≠ 0 ∧
    (move_assign_trivial (ofList 1 [(5 : Nat)]) (ofList 1 [7])).1.values = [7] :=
  ⟨rfl, by decide, rfl⟩

/-- Claim C6 (amended): after `a = std::move(b)`, `a` holds the values `b`
held before the assignment.  For element types that are not trivially move
assignable, `b`'s size is reset to 0; for trivially-move-assignable element
types the defaulted memberwise assignment leaves `b` entirely unchanged. -/
theorem C6_move_assign (N : Nat) (la lb : List α) (ha : la.length ≤ N) (hb : lb.length ≤ N) :
    ((move_assign (ofList N la) (ofList N lb)).1.values = lb ∧
     (move_assign (ofList N la) (ofList N lb)).2.size_ = 0) ∧
    ((move_assign_trivial (ofList N la) (ofList N lb)).1.values = lb ∧
     (move_assign_trivial (ofList N la) (ofList N lb)).2 = ofList N lb) := by
  rw [move_assign_spec N la lb ha hb]
  refine ⟨⟨values_ofList N lb, rfl⟩, ?_, rfl⟩
  show (ofList N lb).values = lb
  exact values_ofList N lb

theorem C6_witness :
    ((move_assign (ofList 3 [1, 2]) (ofList 3 [7, 8, 9])).1.values = [7, 8, 9] ∧
     (move_assign (ofList 3 [(1 : Nat), 2]) (ofList 3 [7, 8, 9])).2.size_ = 0) ∧
    ((move_assign_trivial (ofList 3 [(1 : Nat), 2]) (ofList 3 [7, 8, 9])).1.values = [7, 8, 9] ∧
     (move_assign_trivial (ofList 3 [(1 : Nat), 2]) (ofList 3 [7, 8, 9])).2 = ofList 3 [7, 8, 9]) :=
  C6_move_assign 3 [1, 2] [7, 8, 9] (by decide) (by decide)

/-- Claim C8: for every container with size below capacity, inserting `v` at
`p ∈ [0, size]` and then erasing the single element at `p` reproduces the
original container — same size and the same values in the same order. -/
theorem C8_insert_erase_roundtrip (N : Nat) (l : List α) (p : Nat) (v : α)
    (h1 : l.length < N) (h2 : p ≤ l.length) :
    ∃ s', insert N (ofList N l) p v = .ok s' ∧
      erase_at s' p = ofList N l ∧
      (erase_at s' p).values = l ∧
      (erase_at s' p).size_ = l.length := by
  have he : erase_at (ofList N (l.take p ++ v :: l.drop p)) p = ofList N l := by
    unfold erase_at
    rw [erase_range_eq N (l.take p ++ v :: l.drop p) p (p + 1) (by omega)
      (by rw [length_insert_list l p v h2]; omega)
      (by rw [length_insert_list l p v h2]; omega)]
    have htk : (l.take p ++ v :: l.drop p).take p = l.take p := by
      have h3 := take_len_append (l.take p) (v :: l.drop p)
      rw [length_take_of_le l p h2] at h3
      exact h3
    have hdr : (l.take p ++ v :: l.drop p).drop (p + 1) = l.drop p := by
      have h4 : l.take p ++ v :: l.drop p = (l.take p ++ [v]) ++ l.drop p := by simp
      rw [h4]
      have h5 := drop_len_append (l.take p ++ [v]) (l.drop p)
      rw [show (l.take p ++ [v]).length = p + 1 from by
        simp only [List.length_append, List.length_cons, List.length_nil,
          length_take_of_le l p h2]] at h5
      exact h5
    rw [htk, hdr, List.take_append_drop]
  refine ⟨ofList N (l.take p ++ v :: l.drop p), insert_eq N l p v h2 h1, he, ?_, ?_⟩
  · rw [he, values_ofList]
  · rw [he, size_ofList]

theorem C8_witness :
    ∃ s', insert 4 (ofList 4 [10, 20, 30]) 1 (15 : Nat) = .ok s' ∧
      erase_at s' 1 = ofList 4 [10, 20, 30] ∧
      (erase_at s' 1).values = [10, 20, 30] ∧
      (erase_at s' 1).size_ = ([10, 20, 30] : List Nat).length :=
  C8_insert_erase_roundtrip 4 [10, 20, 30] 1 15 (by decide) (by decide)

/-- Claim C3: exception safety of attic-mediated positional mutation.  Every
intermediate state between attic construction and retrieve or destruction has
the canonical shape `midState u g w t` (live values `u`, a gap, parked values
`w`) with the attic owning `[u.length + g, u.length + g + w.length)`: the
constructor lands in this family and each of its relocation steps, each fill
step, and each retrieve step stays in it.  In every such state, `size_`
counts exactly the live prefix — a slot is live iff it is below `size_` or
parked in the attic — the prefix holds exactly the values `u` and the attic
exactly the parked values `w` (each element owned once), and attic
destruction destroys precisely the still-parked slots, leaving the prefix
live and everything else dead: nothing is destroyed twice or leaked. -/
theorem C3_attic_invariant (N E : Nat) (l : List α) (p : Nat) (v : α)
    (hp : p ≤ l.length) (hLE : l.length ≤ E) (hEN : E ≤ N) :
    (attic_init (ofList N l) p E
      = (midState (l.take p) (E - l.length) (l.drop p) (N - E),
         ⟨p + (E - l.length), E⟩)) ∧
    (∀ (u w : List α) (x : α) (g t k : Nat), 1 ≤ g →
      atticInitLoop (midState (u ++ [x]) g w t) ((u ++ [x]).length + g) (k + 1)
        = atticInitLoop (midState u g (x :: w) t) (u.length + g) k) ∧
    (∀ (u w : List α) (g t : Nat), 1 ≤ g →
      unchecked_emplace_back (midState u g w t) v = midState (u ++ [v]) (g - 1) w t) ∧
    (∀ (u w : List α) (x : α) (g t k : Nat), 1 ≤ g →
      retrieveLoop (midState u g (x :: w) t) (u.length + g) (k + 1)
        = retrieveLoop (midState (u ++ [x]) g w t) ((u ++ [x]).length + g) k) ∧
    (∀ (u w : List α) (g t : Nat),
      (midState u g w t).size_ = u.length ∧
      (∀ i, ((midState u g w t).get i).isSome
        ↔ (i < (midState u g w t).size_
           ∨ (u.length + g ≤ i ∧ i < u.length + g + w.length))) ∧
      (midState u g w t).values = u ∧
      parkedValues (midState u g w t) ⟨u.length + g, u.length + g + w.length⟩ = w) ∧
    (∀ (u w : List α) (g t : Nat),
      attic_dtor (midState u g w t) ⟨u.length + g, u.length + g + w.length⟩
        = midState u (g + w.length) ([] : List α) t ∧
      (∀ i, ((attic_dtor (midState u g w t)
          ⟨u.length + g, u.length + g + w.length⟩).get i).isSome ↔ i < u.length)) := by
  refine ⟨attic_init_spec N E l p hp hLE hEN,
    fun u w x g t k hg => atticInitLoop_succ u w x g t k hg,
    fun u w g t hg => emplace_midState u g w t v hg,
    fun u w x g t k hg => retrieveLoop_succ u w x g t k hg,
    fun u w g t => ⟨rfl, fun i => midState_get_isSome u g w t i,
      midState_values u g w t, midState_parkedValues u g w t⟩,
    fun u w g t => ⟨attic_dtor_midState u g w t, fun i => ?_⟩⟩
  rw [attic_dtor_midState u g w t, midState_get_isSome]
  simp only [List.length_nil]
  omega

theorem C3_witness :
    attic_init (ofList 4 [10, 20, 30]) 1 4
      = (midState (([10, 20, 30] : List Nat).take 1) (4 - ([10, 20, 30] : List Nat).length)
          (([10, 20, 30] : List Nat).drop 1) (4 - 4),
         ⟨1 + (4 - ([10, 20, 30] : List Nat).length), 4⟩) :=
  (C3_attic_invariant 4 4 [10, 20, 30] 1 99 (by decide) (by decide) (by decide)).1

theorem iter_deref_eq (it : CheckedIter) :
    iter_deref it = if it.pos_ < it.first_ ∨ it.pos_ ≥ it.last_
      then .error .rangeErr else .ok it.pos_ := by
  unfold iter_deref deref_check
  by_cases h : it.pos_ < it.first_ ∨ it.pos_ ≥ it.last_ <;> simp [h]

theorem iter_index_eq (it : CheckedIter) (n : Int) :
    iter_index it n = if it.pos_ + n < it.first_ ∨ it.pos_ + n > it.last_
      then .error .rangeErr else .ok (it.pos_ + n) := by
  unfold iter_index iter_range_check
  by_cases h : it.pos_ + n < it.first_ ∨ it.pos_ + n > it.last_ <;> simp [h]

theorem iter_inc_eq (it : CheckedIter) :
    iter_inc it = if it.pos_ + 1 < it.first_ ∨ it.pos_ + 1 > it.last_
      then .error .rangeErr else .ok { it with pos_ := it.pos_ + 1 } := by
  unfold iter_inc iter_range_check
  by_cases h : it.pos_ + 1 < it.first_ ∨ it.pos_ + 1 > it.last_ <;> simp [h]

theorem iter_dec_eq (it : CheckedIter) :
    iter_dec it = if it.pos_ - 1 < it.first_ ∨ it.pos_ - 1 > it.last_
      then .error .rangeErr else .ok { it with pos_ := it.pos_ - 1 } := by
  unfold iter_dec iter_range_check
  by_cases h : it.pos_ - 1 < it.first_ ∨ it.pos_ - 1 > it.last_ <;> simp [h]

theorem iter_add_assign_eq (it : CheckedIter) (n : Int) :
    iter_add_assign it n = if it.pos_ + n < it.first_ ∨ it.pos_ + n > it.last_
      then .error .rangeErr else .ok { it with pos_ := it.pos_ + n } := by
  unfold iter_add_assign iter_range_check
  by_cases h : it.pos_ + n < it.first_ ∨ it.pos_ + n > it.last_ <;> simp [h]

/-- Claim C7: in the checked-iterator build, dereference, indexing, and every
advancing operation that lands outside the captured `[first_, last_]` bounds
raises `range_error`; and no operation reads an element at or beyond `last_`
(`operator*`, the only element read, succeeds only for positions strictly
below `last_`; `operator[]` merely forms a reference, which stays within the
captured bounds). -/
theorem C7_checked_iterator (it : CheckedIter) (n : Int) :
    ((it.pos_ < it.first_ ∨ it.pos_ > it.last_) → iter_deref it = .error .rangeErr) ∧
    (∀ q, iter_deref it = .ok q → it.first_ ≤ q ∧ q < it.last_) ∧
    ((it.pos_ + n < it.first_ ∨ it.pos_ + n > it.last_) →
      iter_index it n = .error .rangeErr) ∧
    (∀ q, iter_index it n = .ok q → it.first_ ≤ q ∧ q ≤ it.last_) ∧
    ((it.pos_ + 1 < it.first_ ∨ it.pos_ + 1 > it.last_) → iter_inc it = .error .rangeErr) ∧
    ((it.pos_ - 1 < it.first_ ∨ it.pos_ - 1 > it.last_) → iter_dec it = .error .rangeErr) ∧
    ((it.pos_ + n < it.first_ ∨ it.pos_ + n > it.last_) →
      iter_add_assign it n = .error .rangeErr ∧ iter_add it n = .error .rangeErr) ∧
    ((it.pos_ - n < it.first_ ∨ it.pos_ - n > it.last_) →
      iter_sub_assign it n = .error .rangeErr ∧ iter_sub it n = .error .rangeErr) := by
  refine ⟨?_, ?_, ?_, ?_, ?_, ?_, ?_, ?_⟩
  · intro h
    rw [iter_deref_eq, if_pos (by omega)]
  · intro q hq
    rw [iter_deref_eq] at hq
    by_cases hc : it.pos_ < it.first_ ∨ it.pos_ ≥ it.last_
    · rw [if_pos hc] at hq
      exact absurd hq (by simp)
    · rw [if_neg hc] at hq
      simp only [Except.ok.injEq] at hq
      subst hq
      omega
  · intro h
    rw [iter_index_eq, if_pos h]
  · intro q hq
    rw [iter_index_eq] at hq
    by_cases hc : it.pos_ + n < it.first_ ∨ it.pos_ + n > it.last_
    · rw [if_pos hc] at hq
      exact absurd hq (by simp)
    · rw [if_neg hc] at hq
      simp only [Except.ok.injEq] at hq
      subst hq
      omega
  · intro h
    rw [iter_inc_eq, if_pos h]
  · intro h
    rw [iter_dec_eq, if_pos h]
  · intro h
    exact ⟨by rw [iter_add_assign_eq, if_pos h], by
      unfold iter_add
      rw [iter_add_assign_eq, if_pos h]⟩
  · intro h
    have h2 : it.pos_ + -n < it.first_ ∨ it.pos_ + -n > it.last_ := by omega
    exact ⟨by unfold iter_sub_assign; rw [iter_add_assign_eq, if_pos h2], by
      unfold iter_sub iter_sub_assign
      rw [iter_add_assign_eq, if_pos h2]⟩

theorem C7_witness :
    iter_deref ⟨(5 : Int), 0, 3⟩ = .error .rangeErr ∧
    iter_index ⟨(1 : Int), 0, 3⟩ 7 = .error .rangeErr ∧
    iter_inc ⟨(3 : Int), 0, 3⟩ = .error .rangeErr ∧
    iter_dec ⟨(0 : Int), 0, 3⟩ = .error .rangeErr :=
  ⟨(C7_checked_iterator ⟨5, 0, 3⟩ 0).1 (by decide),
   (C7_checked_iterator ⟨1, 0, 3⟩ 7).2.2.1 (by decide),
   (C7_checked_iterator ⟨3, 0, 3⟩ 0).2.2.2.2.1 (by decide),
   (C7_checked_iterator ⟨0, 0, 3⟩ 0).2.2.2.2.2.1 (by decide)⟩

/-- Claim C9: `operator==` returns true exactly when the two containers have
equal sizes and equal element values at every index; in particular the
induced relation on container values is reflexive, symmetric, and
transitive. -/
theorem C9_operator_eq [DecidableEq α] (N : Nat) (la lb lc : List α) :
    (vec_eq (ofList N la) (ofList N lb) = true
       ↔ ((ofList N la).size_ = (ofList N lb : Storage α).size_ ∧
          ∀ i, i < (ofList N la).size_ →
            (ofList N la).values.get? i = (ofList N lb).values.get? i)) ∧
    vec_eq (ofList N la) (ofList N la) = true ∧
    (vec_eq (ofList N la) (ofList N lb) = true → vec_eq (ofList N lb) (ofList N la) = true) ∧
    (vec_eq (ofList N la) (ofList N lb) = true → vec_eq (ofList N lb) (ofList N lc) = true →
      vec_eq (ofList N la) (ofList N lc) = true) := by
  refine ⟨?_, ?_, ?_, ?_⟩
  · rw [vec_eq_ofList, size_ofList, size_ofList, values_ofList, values_ofList]
    exact list_eq_iff_len_get la lb
  · rw [vec_eq_ofList]
  · rw [vec_eq_ofList, vec_eq_ofList]
    exact Eq.symm
  · rw [vec_eq_ofList, vec_eq_ofList, vec_eq_ofList]
    exact Eq.trans

theorem C9_witness :
    (vec_eq (ofList 3 [1, 2]) (ofList 3 [1, 3]) = true
       ↔ ((ofList 3 ([1, 2] : List Nat)).size_ = (ofList 3 ([1, 3] : List Nat)).size_ ∧
          ∀ i, i < (ofList 3 ([1, 2] : List Nat)).size_ →
            (ofList 3 ([1, 2] : List Nat)).values.get? i
              = (ofList 3 ([1, 3] : List Nat)).values.get? i)) ∧
    vec_eq (ofList 3 ([1, 2] : List Nat)) (ofList 3 [1, 2]) = true ∧
    (vec_eq (ofList 3 ([1, 2] : List Nat)) (ofList 3 [1, 3]) = true →
      vec_eq (ofList 3 ([1, 3] : List Nat)) (ofList 3 [1, 2]) = true) ∧
    (vec_eq (ofList 3 ([1, 2] : List Nat)) (ofList 3 [1, 3]) = true →
      vec_eq (ofList 3 ([1, 3] : List Nat)) (ofList 3 [2, 2]) = true →
      vec_eq (ofList 3 ([1, 2] : List Nat)) (ofList 3 [2, 2]) = true) :=
  C9_operator_eq 3 [1, 2] [1, 3] [2, 2]

/-- Claim C10: filling a container to exactly its capacity never signals:
`capacity_check` accepts any requested size `≤ N` (it raises only for sizes
strictly greater than `N`), and `push_back` / `emplace_back` / `insert` /
`assign` / `append_range` whose resulting size is exactly `N` complete
normally with size `N`. -/
theorem C10_fill_to_capacity (N : Nat) (l : List α) (v : α) (vs : List α) (p : Nat) :
    (∀ n, n ≤ N → capacity_check N n = .ok ()) ∧
    (∀ n, N < n → capacity_check N n = .error .badAlloc) ∧
    (l.length + 1 = N →
      push_back N (ofList N l) v = .ok (ofList N (l ++ [v])) ∧
      emplace_back N (ofList N l) v = .ok (ofList N (l ++ [v])) ∧
      (ofList N (l ++ [v])).size_ = N) ∧
    (p ≤ l.length → l.length + vs.length = N →
      insert_list N (ofList N l) p vs = .ok (ofList N (l.take p ++ vs ++ l.drop p)) ∧
      (ofList N (l.take p ++ vs ++ l.drop p)).size_ = N) ∧
    (l.length ≤ N →
      assign_count N (ofList N l) N v = .ok (ofList N (List.replicate N v)) ∧
      (ofList N (List.replicate N v)).size_ = N) ∧
    (l.length + vs.length = N →
      append_range N (ofList N l) vs = .ok (ofList N (l ++ vs)) ∧
      (ofList N (l ++ vs)).size_ = N) := by
  refine ⟨?_, ?_, ?_, ?_, ?_, ?_⟩
  · intro m hm
    unfold capacity_check
    rw [if_neg (by omega)]
  · intro m hm
    unfold capacity_check
    rw [if_pos (by omega)]
  · intro h
    refine ⟨emplace_back_ok N l v (by omega), emplace_back_ok N l v (by omega), ?_⟩
    rw [size_ofList]
    simp only [List.length_append, List.length_cons, List.length_nil]
    omega
  · intro h1 h2
    refine ⟨insert_list_eq N l p vs h1 (by omega), ?_⟩
    rw [size_ofList]
    simp only [List.length_append, List.length_take, List.length_drop,
      Nat.min_eq_left h1]
    omega
  · intro h1
    refine ⟨assign_count_spec N l N v h1 (le_refl N), ?_⟩
    rw [size_ofList, List.length_replicate]
  · intro h1
    refine ⟨append_range_ok N l vs (by omega), ?_⟩
    rw [size_ofList]
    simp only [List.length_append]
    omega

theorem C10_witness :
    (∀ n, n ≤ 3 → capacity_check 3 n = .ok ()) ∧
    (∀ n, 3 < n → capacity_check 3 n = .error .badAlloc) ∧
    (([1, 2] : List Nat).length + 1 = 3 →
      push_back 3 (ofList 3 [1, 2]) (9 : Nat) = .ok (ofList 3 ([1, 2] ++ [9])) ∧
      emplace_back 3 (ofList 3 [1, 2]) (9 : Nat) = .ok (ofList 3 ([1, 2] ++ [9])) ∧
      (ofList 3 (([1, 2] : List Nat) ++ [9])).size_ = 3) ∧
    (1 ≤ ([1, 2] : List Nat).length → ([1, 2] : List Nat).length + [7].length = 3 →
      insert_list 3 (ofList 3 [1, 2]) 1 [(7 : Nat)]
        = .ok (ofList 3 (([1, 2] : List Nat).take 1 ++ [7] ++ ([1, 2] : List Nat).drop 1)) ∧
      (ofList 3 (([1, 2] : List Nat).take 1 ++ [7] ++ ([1, 2] : List Nat).drop 1)).size_ = 3) ∧
    (([1, 2] : List Nat).length ≤ 3 →
      assign_count 3 (ofList 3 [1, 2]) 3 (9 : Nat) = .ok (ofList 3 (List.replicate 3 9)) ∧
      (ofList 3 (List.replicate 3 (9 : Nat))).size_ = 3) ∧
    (([1, 2] : List Nat).length + [7].length = 3 →
      append_range 3 (ofList 3 [1, 2]) [(7 : Nat)] = .ok (ofList 3 ([1, 2] ++ [7])) ∧
      (ofList 3 (([1, 2] : List Nat) ++ [7])).size_ = 3) :=
  C10_fill_to_capacity 3 [1, 2] 9 [7] 1

end InplaceVec
